import Mathlib

/-!
Verification development for the hook dispatch and execution-control
subsystem of the `vscode-ai-agent-hooks` extension.

The definitions below are a shallow embedding of `src/hookExecutor.ts`:

* the pure pattern matcher `matchesFilePattern` / `matchesGlobPattern`
  (source lines 205-268), including the glob-to-regex conversion and a
  backtracking matcher for the tiny regex language that conversion emits;
* the dispatcher state machine (`enqueueHookExecution`,
  `processExecutionQueue`, `scheduleHookExecution`,
  `canExecuteAfterCooldown`, `executeHookWithChecks`, `executeHook`,
  `resetCooldown`, `stopRunningHook`, `handleFileEvent`,
  `handleFileSystemEvent`), embedded as a small-step system: JavaScript
  runs each async function synchronously up to its first `await`, so every
  synchronous segment between two `await`s is one atomic step, and the
  suspended continuations (`setTimeout` sleeps, the AI backend call) are
  explicit tasks that the environment resumes in any order.

JavaScript `Map` objects are modelled as association lists (`aset`
mirrors `Map.set`, which overwrites in place), `Set` objects as
duplicate-free `List String`, and `Date.now()` as a `now : Nat` field
advanced by explicit `tick` actions.
-/

/-- Lookup in an association list, mirroring JavaScript `Map.get`. -/
def alookup {α : Type} : List (String × α) → String → Option α
  | [], _ => none
  | (k, v) :: r, k' => if k = k' then some v else alookup r k'

/-- Update in an association list, mirroring JavaScript `Map.set`:
replaces the binding in place when the key is present, else appends. -/
def aset {α : Type} : List (String × α) → String → α → List (String × α)
  | [], k, v => [(k, v)]
  | (k0, v0) :: r, k, v => if k0 = k then (k0, v) :: r else (k0, v0) :: aset r k v

/-- Removal from an association list, mirroring JavaScript `Map.delete`. -/
def aerase {α : Type} : List (String × α) → String → List (String × α)
  | [], _ => []
  | (k0, v0) :: r, k => if k0 = k then r else (k0, v0) :: aerase r k

/-- Membership test of a string in a list, mirroring `Set.has` / `Array.includes`. -/
def smem (l : List String) (x : String) : Bool := l.contains x

/-- Insertion mirroring `Set.add` (no duplicate is created). -/
def sadd (l : List String) (x : String) : List String :=
  if smem l x then l else l ++ [x]

/-- List-of-characters prefix test, mirroring `String.prototype.startsWith`. -/
def startsWithL : List Char → List Char → Bool
  | [], _ => true
  | _ :: _, [] => false
  | p :: ps, c :: cs => p = c && startsWithL ps cs

/-- Comma splitting, mirroring `String.prototype.split(",")`. -/
def splitOnComma : List Char → List (List Char)
  | [] => [[]]
  | ',' :: r => [] :: splitOnComma r
  | c :: r =>
    match splitOnComma r with
    | [] => [[c]]
    | g :: gs => (c :: g) :: gs

/-- Whitespace recognizer used by `String.prototype.trim`. -/
def isSpaceChar (c : Char) : Bool :=
  c = ' ' || c = '\t' || c = '\n' || c = '\r'

/-- Both-ends whitespace trimming, mirroring `String.prototype.trim`. -/
def trimL (cs : List Char) : List Char :=
  ((cs.dropWhile isSpaceChar).reverse.dropWhile isSpaceChar).reverse

/-- Execution mode of a hook (`single` / `multiple` / `restart`), the
`executionMode` field of the `Hook` interface. -/
inductive HookExecutionMode
  | single
  | multiple
  | restart
deriving DecidableEq

/-- The slice of the `Hook` record that the dispatcher reads. -/
structure Hook where
  id : String
  name : String
  filePattern : String
  executionMode : HookExecutionMode
  priority : Int
deriving DecidableEq

/-- Trigger context built in `handleFileEvent` / `handleFileSystemEvent`:
text-document events carry a content snapshot (`hasContent = true`),
file-system events do not. -/
structure TriggerCtx where
  type : String
  file : String
  hasContent : Bool
deriving DecidableEq

/-- Backslash-to-forward-slash normalization (`filePath.replace(/\\/g, "/")`,
hookExecutor.ts lines 236-237). -/
def normalizeSlashes (cs : List Char) : List Char :=
  cs.map (fun c => if c = '\\' then '/' else c)

/-- First rewrite of the glob-to-regex conversion: `.replace(/\./g, "\\.")`
(hookExecutor.ts line 250, "Escape dots first!"). -/
def escapeDots : List Char → List Char
  | [] => []
  | '.' :: r => '\\' :: '.' :: escapeDots r
  | c :: r => c :: escapeDots r

/-- Second rewrite: `.replace(/\*\*/g, ".*")` (line 251), left-to-right and
non-overlapping like a global JavaScript regex replace. -/
def replaceStarStar : List Char → List Char
  | '*' :: '*' :: r => '.' :: '*' :: replaceStarStar r
  | c :: r => c :: replaceStarStar r
  | [] => []

/-- Third rewrite: `.replace(/\*/g, "[^/]*")` (line 252).  Note that this
also rewrites the `*` of any `.*` produced by the previous rewrite. -/
def replaceStar : List Char → List Char
  | '*' :: r => '[' :: '^' :: '/' :: ']' :: '*' :: replaceStar r
  | c :: r => c :: replaceStar r
  | [] => []

/-- Fourth rewrite: `.replace(/\?/g, "[^/]")` (line 253). -/
def replaceQuestion : List Char → List Char
  | '?' :: r => '[' :: '^' :: '/' :: ']' :: replaceQuestion r
  | c :: r => c :: replaceQuestion r
  | [] => []

/-- Glob-to-regex conversion of `matchesGlobPattern` (lines 248-261): the
four rewrites, then `.*` is prefixed unless already present and `$` is
appended unless already present. -/
def globToRegex (pattern : List Char) : List Char :=
  let p := replaceQuestion (replaceStar (replaceStarStar (escapeDots pattern)))
  let p := if startsWithL ['.', '*'] p then p else '.' :: '*' :: p
  if p.getLast? = some '$' then p else p ++ ['$']

/-- Atoms of the regex language that `globToRegex` emits: `.`, `[^/]`, and
(possibly backslash-escaped) literal characters. -/
inductive RAtom
  | any
  | nonSlash
  | lit (c : Char)
deriving DecidableEq

/-- One parsed regex piece: an atom, optionally starred. -/
structure RPiece where
  atom : RAtom
  star : Bool
deriving DecidableEq

/-- Parser from the emitted regex string to pieces.  The single trailing
`$` anchor is consumed structurally: the matcher below always requires the
pieces to consume the whole remaining input, which is exactly the JS
semantics of a regex ending in `$`. -/
def parseRegex : List Char → List RPiece
  | [] => []
  | ['$'] => []
  | '\\' :: c :: '*' :: r => ⟨RAtom.lit c, true⟩ :: parseRegex r
  | '\\' :: c :: r => ⟨RAtom.lit c, false⟩ :: parseRegex r
  | '[' :: '^' :: '/' :: ']' :: '*' :: r => ⟨RAtom.nonSlash, true⟩ :: parseRegex r
  | '[' :: '^' :: '/' :: ']' :: r => ⟨RAtom.nonSlash, false⟩ :: parseRegex r
  | '.' :: '*' :: r => ⟨RAtom.any, true⟩ :: parseRegex r
  | '.' :: r => ⟨RAtom.any, false⟩ :: parseRegex r
  | c :: '*' :: r => ⟨RAtom.lit c, true⟩ :: parseRegex r
  | c :: r => ⟨RAtom.lit c, false⟩ :: parseRegex r

/-- ECMA-262 line terminators (LF, CR, LINE SEPARATOR, PARAGRAPH
SEPARATOR): the `.` atom of a `RegExp` built without the `s` flag — as on
line 263 — matches every character except these. -/
def isLineTerminator (c : Char) : Bool :=
  c = '\n' || c = '\r' || c = '\u2028' || c = '\u2029'

/-- Single-character matching; `.` excludes line terminators (no `s`
flag), a negated class `[^/]` matches them, and literal comparison is
case-insensitive, mirroring the `"i"` flag of the constructed `RegExp`
(line 263). -/
def charMatch : RAtom → Char → Bool
  | RAtom.any, c => !(isLineTerminator c)
  | RAtom.nonSlash, c => c ≠ '/'
  | RAtom.lit l, c => l.toLower = c.toLower

/-- Matching of a piece list against the empty input: every remaining
piece must be starred. -/
def reMatchNil : List RPiece → Bool
  | [] => true
  | ⟨_, true⟩ :: ps => reMatchNil ps
  | ⟨_, false⟩ :: _ => false

/-- One input character consumed against a piece list; `rest ps'` decides
whether the remaining input matches `ps'`. -/
def reMatchCons (c : Char) (rest : List RPiece → Bool) : List RPiece → Bool
  | [] => false
  | ⟨a, true⟩ :: ps => reMatchCons c rest ps || (charMatch a c && rest (⟨a, true⟩ :: ps))
  | ⟨a, false⟩ :: ps => charMatch a c && rest ps

/-- Backtracking matcher core, by structural recursion on the input. -/
def reMatchL : List Char → List RPiece → Bool
  | [], ps => reMatchNil ps
  | c :: cs, ps => reMatchCons c (reMatchL cs) ps

/-- Full match of the pieces against the whole input (the regex always
carries a final `$`, so a successful match consumes everything). -/
def reMatch (ps : List RPiece) (cs : List Char) : Bool := reMatchL cs ps

/-- `RegExp.prototype.test`: the match may start at any index (the regex is
not anchored at the start), but must reach the final `$`. -/
def regexTest (ps : List RPiece) : List Char → Bool
  | [] => reMatch ps []
  | c :: cs => reMatch ps (c :: cs) || regexTest ps cs

/-- Shallow embedding of `matchesGlobPattern` (hookExecutor.ts lines
231-268): normalize both strings, special-case the `**/*` sentinel, else
convert the glob to a regex and test it against the path. -/
def matchesGlobPattern (filePath pattern : List Char) : Bool :=
  let normalizedPath := normalizeSlashes filePath
  let normalizedPattern := normalizeSlashes pattern
  if normalizedPattern = "**/*".data then true
  else regexTest (parseRegex (globToRegex normalizedPattern)) normalizedPath

/-- Shallow embedding of `matchesFilePattern` (hookExecutor.ts lines
205-229): the empty (JS-falsy) or `**/*` pattern matches everything;
otherwise the pattern is split on commas, each part trimmed, and the path
matches when any part does. -/
def matchesFilePattern (filePath : String) (hook : Hook) : Bool :=
  if hook.filePattern = "" || hook.filePattern = "**/*" then true
  else
    ((splitOnComma hook.filePattern.data).map trimL).any
      (fun pattern => matchesGlobPattern filePath.data pattern)

example : matchesGlobPattern "src/a.ts".data "**/*.ts".data = true := by decide
example : matchesGlobPattern "a.ts".data "**/*.ts".data = false := by decide
example : matchesGlobPattern "A.TS".data "**/*.ts".data = false := by decide
example : matchesGlobPattern "b/A.TS".data "**/*.ts".data = true := by decide
example : matchesGlobPattern "/a.ts".data "**/*.ts".data = false := by decide
example : matchesGlobPattern "\n/a.ts".data "**/*.ts".data = false := by decide
example : matchesGlobPattern "a\n/x.ts".data "**/*.ts".data = true := by decide
example : matchesGlobPattern "".data "**/*".data = true := by decide
example : matchesFilePattern "a/x.kt"
    ⟨"h", "h", " **/*.ts , **/*.kt ", HookExecutionMode.single, 0⟩ = true := by decide

/-- Suspended continuations of the single-threaded event loop.  Each task
is one async call chain parked at an `await`:
* `restartSleep`: `scheduleHookExecution`'s restart branch awaiting its
  100ms delay (line 360) before calling `executeHookWithChecks`;
* `aiCall`: `executeHook` awaiting the AI backend call (line 463); `eid`
  identifies both the execution and its `AbortController`;
* `pacing`: `processExecutionQueue` awaiting its 500ms delay between
  queue entries (line 310). -/
inductive TaskK
  | restartSleep (key : String) (hook : Hook) (ctx : TriggerCtx)
  | aiCall (key : String) (eid : Nat) (hook : Hook) (ctx : TriggerCtx)
  | pacing (key : String)
deriving DecidableEq

/-- Status notifications emitted around an execution: `beginEv` when
`executeHook` stores the abort controller and notifies the hook manager
that the hook is running (lines 411-415), `endEv` when its `finally` block
removes the controller and notifies completion (lines 484-489). -/
inductive LogEv
  | beginEv (eid : Nat) (hookId : String) (file : String)
  | endEv (eid : Nat) (hookId : String)
deriving DecidableEq

/-- The mutable fields of the `HookExecutor` singleton (hookExecutor.ts
lines 11-17) together with the event-loop bookkeeping: suspended tasks, a
fresh-execution counter, the clock and the emitted status log. -/
structure ExecState where
  executionQueue : List (String × List (Hook × TriggerCtx))
  runningHooks : List (String × Nat)
  abortedCtrls : List Nat
  processingFiles : List String
  lastExecution : List (String × Nat)
  hookGeneratedFiles : List String
  now : Nat
  nextEid : Nat
  tasks : List TaskK
  log : List LogEv
deriving DecidableEq

/-- Key of the per-hook-per-file maps: `` `${hook.id}:${filePath}` ``. -/
def hookFileKey (hookId filePath : String) : String := hookId ++ ":" ++ filePath

/-- The 5-second cooldown constant `COOLDOWN_MS` (line 13). -/
def COOLDOWN_MS : Nat := 5000

/-- Shallow embedding of `canExecuteAfterCooldown` (lines 369-383): a
missing entry is read as `0` by `this.lastExecution.get(key) || 0`. -/
def canExecuteAfterCooldown (s : ExecState) (key : String) : Bool :=
  let lastExecTime := (alookup s.lastExecution key).getD 0
  let timeSinceLastExec := s.now - lastExecTime
  if timeSinceLastExec < COOLDOWN_MS then false else true

/-- Shallow embedding of `stopRunningHook` (lines 126-134): abort the
controller currently registered for the hook id, if any. -/
def stopRunningHook (s : ExecState) (hookId : String) : ExecState :=
  match alookup s.runningHooks hookId with
  | some ctrl => { s with abortedCtrls := ctrl :: s.abortedCtrls }
  | none => s

/-- Entry segment of `executeHook` (lines 409-415): create a fresh
`AbortController`, store it under the hook id — `Map.set` silently
replaces any existing controller — and notify "running".  The body then
suspends at the AI backend call, which becomes an `aiCall` task. -/
def executeHookStart (s : ExecState) (key : String) (hook : Hook) (ctx : TriggerCtx) :
    ExecState × TaskK :=
  let eid := s.nextEid
  ({ s with
      runningHooks := aset s.runningHooks hook.id eid,
      nextEid := eid + 1,
      log := LogEv.beginEv eid hook.id ctx.file :: s.log },
   TaskK.aiCall key eid hook ctx)

/-- Entry segment of `executeHookWithChecks` (lines 385-403): re-entrancy
guard on the `(hook, file)` key, then mark processing, record the cooldown
timestamp and run `executeHook` up to its first suspension. -/
def executeHookWithChecks (s : ExecState) (key : String) (hook : Hook) (ctx : TriggerCtx) :
    ExecState × Option TaskK :=
  let hfk := hookFileKey hook.id ctx.file
  if smem s.processingFiles hfk then (s, none)
  else
    let s := { s with
        processingFiles := s.processingFiles ++ [hfk],
        lastExecution := aset s.lastExecution hfk s.now }
    let (s, t) := executeHookStart s key hook ctx
    (s, some t)

/-- Shallow embedding of `scheduleHookExecution` (lines 325-367), the
execution-mode policy.  A `none` task with an unchanged state is a silent
drop; the restart branch aborts the registered controller and suspends for
its 100ms delay. -/
def scheduleHookExecution (s : ExecState) (key : String) (hook : Hook) (ctx : TriggerCtx) :
    ExecState × Option TaskK :=
  match hook.executionMode with
  | HookExecutionMode.multiple => executeHookWithChecks s key hook ctx
  | HookExecutionMode.single =>
    if (alookup s.runningHooks hook.id).isSome then (s, none)
    else if canExecuteAfterCooldown s (hookFileKey hook.id ctx.file) = false then (s, none)
    else executeHookWithChecks s key hook ctx
  | HookExecutionMode.restart =>
    if (alookup s.runningHooks hook.id).isSome then
      (stopRunningHook s hook.id, some (TaskK.restartSleep key hook ctx))
    else executeHookWithChecks s key hook ctx

/-- Tail of one `while` iteration of `processExecutionQueue` (lines
308-322): with more entries queued, suspend for the 500ms pacing delay;
with the queue empty, leave the loop and delete the per-file queue. -/
def afterScheduleInQueue (s : ExecState) (key : String) : ExecState × Option TaskK :=
  match alookup s.executionQueue key with
  | some (_ :: _) => (s, some (TaskK.pacing key))
  | some [] => ({ s with executionQueue := aerase s.executionQueue key }, none)
  | none => (s, none)

/-- One `while` iteration of `processExecutionQueue` (lines 301-316):
shift the head entry, schedule it; if scheduling suspended, that task is
the continuation, otherwise (a silent drop) continue in the loop tail. -/
def drainIterate (s : ExecState) (key : String) (e : Hook × TriggerCtx)
    (rest : List (Hook × TriggerCtx)) : ExecState × Option TaskK :=
  let s := { s with executionQueue := aset s.executionQueue key rest }
  match scheduleHookExecution s key e.1 e.2 with
  | (s, some tk) => (s, some tk)
  | (s, none) => afterScheduleInQueue s key

/-- Entry of `processExecutionQueue` (lines 293-299): a missing or empty
queue returns immediately (without deleting anything); otherwise the first
`while` iteration runs. -/
def processExecutionQueue (s : ExecState) (key : String) : ExecState × Option TaskK :=
  match alookup s.executionQueue key with
  | none => (s, none)
  | some [] => (s, none)
  | some (e :: rest) => drainIterate s key e rest

/-- Re-entry of the `while` loop after the pacing delay: the loop
condition is re-checked; an empty queue exits the loop and is deleted
(lines 318-322). -/
def drainLoopHead (s : ExecState) (key : String) : ExecState × Option TaskK :=
  match alookup s.executionQueue key with
  | some (e :: rest) => drainIterate s key e rest
  | some [] => ({ s with executionQueue := aerase s.executionQueue key }, none)
  | none => (s, none)

/-- Shallow embedding of `enqueueHookExecution` (lines 270-291): get or
create the per-file queue, push the entry, re-sort by priority descending
(stable), and start the drain when the push made the length 1. -/
def insertByPriority (e : Hook × TriggerCtx) :
    List (Hook × TriggerCtx) → List (Hook × TriggerCtx)
  | [] => [e]
  | x :: xs =>
    if e.1.priority ≥ x.1.priority then e :: x :: xs else x :: insertByPriority e xs

/-- Stable sort by `hook.priority` descending, the extensional behavior of
`queue.sort((a, b) => b.hook.priority - a.hook.priority)` (line 285):
JavaScript's `Array.prototype.sort` is guaranteed stable, and a stable
sort under a fixed total preorder is extensionally unique, so insertion
sort with ties kept in input order is the same function. -/
def sortByPriorityDesc : List (Hook × TriggerCtx) → List (Hook × TriggerCtx)
  | [] => []
  | x :: xs => insertByPriority x (sortByPriorityDesc xs)

/-- Shallow embedding of `enqueueHookExecution` (lines 270-291). -/
def enqueueHookExecution (s : ExecState) (filePath : String) (hook : Hook)
    (ctx : TriggerCtx) : ExecState × Option TaskK :=
  let queueKey := filePath
  let q := sortByPriorityDesc (((alookup s.executionQueue queueKey).getD []) ++ [(hook, ctx)])
  let s := { s with executionQueue := aset s.executionQueue queueKey q }
  if q.length = 1 then processExecutionQueue s queueKey else (s, none)

/-- Shallow embedding of `handleFileEvent` (lines 144-185), the handler of
text-document events (save / change / open): consume-once suppression of
hook-generated files first, then pattern matching, then enqueue. -/
def handleFileEvent (s : ExecState) (hook : Hook) (filePath eventType : String) :
    ExecState × Option TaskK :=
  if smem s.hookGeneratedFiles filePath then
    ({ s with hookGeneratedFiles := s.hookGeneratedFiles.erase filePath }, none)
  else if matchesFilePattern filePath hook = false then (s, none)
  else enqueueHookExecution s filePath hook ⟨eventType, filePath, true⟩

/-- Shallow embedding of `handleFileSystemEvent` (lines 187-203), the
handler of create / delete watcher events: pattern matching only — it does
not consult `hookGeneratedFiles`. -/
def handleFileSystemEvent (s : ExecState) (hook : Hook) (filePath eventType : String) :
    ExecState × Option TaskK :=
  if matchesFilePattern filePath hook = false then (s, none)
  else enqueueHookExecution s filePath hook ⟨eventType, filePath, false⟩

/-- Shallow embedding of `resetCooldown` (lines 679-695): with a file path
it deletes that one `hookId:filePath` key from both `lastExecution` and
`processingFiles`; without one it deletes every key of `lastExecution`
starting with `hookId:` from both structures. -/
def resetCooldown (s : ExecState) (hookId : String) (filePath : Option String) : ExecState :=
  match filePath with
  | some fp =>
    let k := hookFileKey hookId fp
    { s with
        lastExecution := aerase s.lastExecution k,
        processingFiles := s.processingFiles.erase k }
  | none =>
    let keysToDelete := (s.lastExecution.map Prod.fst).filter
      (fun k => startsWithL (hookId ++ ":").data k.data)
    { s with
        lastExecution := keysToDelete.foldl aerase s.lastExecution,
        processingFiles := keysToDelete.foldl List.erase s.processingFiles }

/-- Outcome of the awaited AI backend call, chosen by the environment:
either a response (`ok`, with the optional `TARGET_FILE` the response
names for file-system events) or a thrown error. -/
inductive AIResult
  | ok (target : Option String)
  | err
deriving DecidableEq

/-- File written by `applyChanges` (lines 534-666) on a successful
response: text-document events always rewrite and mark `context.file`
(line 660); file-system events mark the `TARGET_FILE` when the response
names one (line 622).  A cancelled or failed execution writes nothing. -/
def markGeneratedPath (ctx : TriggerCtx) (res : AIResult) (aborted : Bool) : Option String :=
  if aborted then none
  else
    match res with
    | AIResult.err => none
    | AIResult.ok target => if ctx.hasContent then some ctx.file else target

/-- Resumption of an `aiCall` task: the rest of `executeHook` (lines
464-489) — cancellation check, `applyChanges` with its generated-file
marking, then the `finally` blocks of `executeHook` (delete the hook id
from `runningHooks`, notify "finished") and of `executeHookWithChecks`
(unmark processing) — followed by the `while` loop tail of
`processExecutionQueue` that was awaiting this execution. -/
def executeHookFinish (s : ExecState) (key : String) (eid : Nat) (hook : Hook)
    (ctx : TriggerCtx) (res : AIResult) : ExecState × Option TaskK :=
  let aborted := s.abortedCtrls.contains eid
  let s :=
    match markGeneratedPath ctx res aborted with
    | some p => { s with hookGeneratedFiles := sadd s.hookGeneratedFiles p }
    | none => s
  let s := { s with
      runningHooks := aerase s.runningHooks hook.id,
      log := LogEv.endEv eid hook.id :: s.log }
  let s := { s with processingFiles := s.processingFiles.erase (hookFileKey hook.id ctx.file) }
  afterScheduleInQueue s key

/-- Resumption of a `restartSleep` task: the restart branch continues with
`executeHookWithChecks` (line 364); a silent drop there falls back into
the awaiting `while` loop tail. -/
def resumeRestartSleep (s : ExecState) (key : String) (hook : Hook) (ctx : TriggerCtx) :
    ExecState × Option TaskK :=
  match executeHookWithChecks s key hook ctx with
  | (s, some tk) => (s, some tk)
  | (s, none) => afterScheduleInQueue s key

/-- Attach a freshly suspended task (if any) to the state. -/
def withTask : ExecState × Option TaskK → ExecState
  | (s, none) => s
  | (s, some t) => { s with tasks := s.tasks ++ [t] }

/-- Resume the suspended task at index `i` (no-op when out of range),
running its continuation synchronously up to the next suspension. -/
def resumeTask (s : ExecState) (i : Nat) (res : AIResult) : ExecState :=
  match s.tasks.get? i with
  | none => s
  | some t =>
    let s := { s with tasks := s.tasks.eraseIdx i }
    match t with
    | TaskK.restartSleep key hook ctx => withTask (resumeRestartSleep s key hook ctx)
    | TaskK.aiCall key eid hook ctx => withTask (executeHookFinish s key eid hook ctx res)
    | TaskK.pacing key => withTask (drainLoopHead s key)

/-- Environment actions: trigger events delivered by the editor, the
scheduler resuming one suspended task, clock advance, and the public
`resetCooldown` / `stopRunningHook` entry points. -/
inductive EnvAction
  | docEvent (hook : Hook) (filePath eventType : String)
  | fsEvent (hook : Hook) (filePath eventType : String)
  | resume (i : Nat) (res : AIResult)
  | tick (dt : Nat)
  | resetCd (hookId : String) (filePath : Option String)
  | stop (hookId : String)
deriving DecidableEq

/-- One step of the event loop. -/
def step (s : ExecState) : EnvAction → ExecState
  | EnvAction.docEvent h p et => withTask (handleFileEvent s h p et)
  | EnvAction.fsEvent h p et => withTask (handleFileSystemEvent s h p et)
  | EnvAction.resume i r => resumeTask s i r
  | EnvAction.tick dt => { s with now := s.now + dt }
  | EnvAction.resetCd hid fp => resetCooldown s hid fp
  | EnvAction.stop hid => stopRunningHook s hid

/-- Run a list of actions. -/
def run (s : ExecState) : List EnvAction → ExecState
  | [] => s
  | a :: as => run (step s a) as

/-- The freshly constructed `HookExecutor`: every structure empty. -/
def initState : ExecState := ⟨[], [], [], [], [], [], 0, 0, [], []⟩

/-- Executions for file path `p` that have begun and not yet settled:
`aiCall` tasks whose queue key is `p`. -/
def liveExecsFor (s : ExecState) (p : String) : Nat :=
  (s.tasks.filter fun t =>
    match t with
    | TaskK.aiCall key _ _ _ => key = p
    | _ => false).length

/-- Hook ids of the `beginEv` notifications in emission order. -/
def beginsOf (s : ExecState) : List String :=
  s.log.reverse.filterMap fun e =>
    match e with
    | LogEv.beginEv _ hid _ => some hid
    | _ => none

/-- Execution ids of the `endEv` notifications in emission order. -/
def endsOf (s : ExecState) : List Nat :=
  s.log.reverse.filterMap fun e =>
    match e with
    | LogEv.endEv eid _ => some eid
    | _ => none

example :
    liveExecsFor (run initState
      [EnvAction.docEvent ⟨"hookA", "A", "**/*", HookExecutionMode.multiple, 50⟩ "f.ts" "save",
       EnvAction.docEvent ⟨"hookB", "B", "**/*", HookExecutionMode.multiple, 50⟩ "f.ts" "save"])
      "f.ts" = 2 := by decide

/-- Lower-cased ".ts"-suffix test on a character list: the path ends with
`.ts` up to ASCII case. -/
def endsWithDotTs (cs : List Char) : Bool :=
  match cs.reverse with
  | cS :: cT :: cD :: _ => (cS.toLower = 's') && (cT.toLower = 't') && (cD.toLower = '.')
  | _ => false

/-- Test that some character that is not a line terminator occurs
strictly before some separator.  Together with the `.ts`-suffix test this
characterizes the paths accepted by the `**/*.ts` regex: its unstarred
`.` atom must consume one non-line-terminator character somewhere before
the path's last separator. -/
def hasAnyBeforeSlash : List Char → Bool
  | [] => false
  | c :: t => (!(isLineTerminator c) && t.contains '/') || hasAnyBeforeSlash t

/-- Parsed pieces of the regex that `globToRegex` emits for `**/*.ts`. -/
def tsPieces : List RPiece :=
  parseRegex (globToRegex (normalizeSlashes "**/*.ts".data))

/-- Suffix pieces `[^/]*\.ts$` of the `**/*.ts` regex. -/
def tsTailPieces : List RPiece :=
  [⟨RAtom.nonSlash, true⟩, ⟨RAtom.lit '.', false⟩, ⟨RAtom.lit 't', false⟩,
   ⟨RAtom.lit 's', false⟩]

/-- A hook whose scope pattern is `**/*.ts`. -/
def tsHook : Hook := ⟨"tsHook", "tsHook", "**/*.ts", HookExecutionMode.single, 0⟩

/-- Side condition packaged for the single-mode invariant: a hook whose id
collides with `h` must itself be single-mode, and hook ids contain no
colon (so `hookFileKey` keys identify their hook id unambiguously). -/
def hookOK (h h' : Hook) : Prop :=
  (h'.id = h.id → h'.executionMode = HookExecutionMode.single) ∧
    h'.id.data.contains ':' = false

/-- Task-level side condition: queued restart sleeps never belong to `h`
(its entries are single-mode), and every task's hook satisfies `hookOK`. -/
def taskHookOK (h : Hook) : TaskK → Prop
  | TaskK.restartSleep _ h' _ => hookOK h h' ∧ h'.id ≠ h.id
  | TaskK.aiCall _ _ h' _ => hookOK h h'
  | TaskK.pacing _ => True

/-- Test for a live (begun, unsettled) execution of the hook id. -/
def isLiveExecOf (hid : String) : TaskK → Bool
  | TaskK.aiCall _ _ h' _ => h'.id = hid
  | _ => false

/-- Number of live executions of a hook id. -/
def liveCountOf (s : ExecState) (hid : String) : Nat :=
  (s.tasks.filter (isLiveExecOf hid)).length

/-- Processing-marker key owned by a task, when it is a live execution. -/
def taskProcKey : TaskK → Option String
  | TaskK.aiCall _ _ h' ctx => some (hookFileKey h'.id ctx.file)
  | _ => none

/-- Inductive invariant of the event loop relative to a single-mode hook
`h`: all queued entries and tasks respect `hookOK`, at most one execution
of `h` is live, a live execution of `h` keeps `runningHooks` populated,
every processing marker of `h` belongs to a live execution of `h`, and
the processing set has no duplicates. -/
structure SingleInv (h : Hook) (s : ExecState) : Prop where
  qhooks : ∀ pq ∈ s.executionQueue, ∀ e ∈ pq.2, hookOK h e.1
  thooks : ∀ t ∈ s.tasks, taskHookOK h t
  atMostOne : liveCountOf s h.id ≤ 1
  liveRunning : 1 ≤ liveCountOf s h.id → (alookup s.runningHooks h.id).isSome = true
  procLive : ∀ k ∈ s.processingFiles, (∃ f, k = hookFileKey h.id f) →
    ∃ t ∈ s.tasks, isLiveExecOf h.id t = true ∧ taskProcKey t = some k
  procNodup : s.processingFiles.Nodup

/-- Environment discipline for the single-mode invariant: every delivered
event's hook satisfies `hookOK h`. -/
def actionOK (h : Hook) : EnvAction → Prop
  | EnvAction.docEvent h' _ _ => hookOK h h'
  | EnvAction.fsEvent h' _ _ => hookOK h h'
  | _ => True

/-- Queue entries sorted by priority descending. -/
def sortedPrioDesc (q : List (Hook × TriggerCtx)) : Prop :=
  List.Pairwise (fun a b => a.1.priority ≥ b.1.priority) q

/-- Multiple-mode hook used in concrete traces. -/
def hookMulA : Hook := ⟨"hookA", "A", "**/*", HookExecutionMode.multiple, 50⟩

/-- Second multiple-mode hook used in concrete traces. -/
def hookMulB : Hook := ⟨"hookB", "B", "**/*", HookExecutionMode.multiple, 50⟩

/-- Restart-mode hook used in concrete traces. -/
def hookRst : Hook := ⟨"hookR", "R", "**/*", HookExecutionMode.restart, 50⟩

/-- Single-mode hook used in concrete traces. -/
def hookSgl : Hook := ⟨"hookS", "S", "**/*", HookExecutionMode.single, 50⟩

/-- Trace refuting C1: two text-document events for the same file while
the first execution is suspended in its AI call. -/
def c1Trace : List EnvAction :=
  [EnvAction.docEvent hookMulA "f.ts" "save",
   EnvAction.docEvent hookMulB "f.ts" "save"]

/-- Trace refuting C3: a restart-mode hook is running for `f1`; a trigger
for `f2` cancels it and starts a new execution; then the old cancelled
execution settles and its cleanup removes the new execution's handle. -/
def c3Trace : List EnvAction :=
  [EnvAction.docEvent hookRst "f1" "save",
   EnvAction.docEvent hookRst "f2" "save",
   EnvAction.resume 1 (AIResult.ok none),
   EnvAction.resume 0 (AIResult.ok none)]

/-- Trace refuting C4: a multiple-mode hook already holds a live
cancellation handle when a second execution begins for another file. -/
def c4Trace : List EnvAction :=
  [EnvAction.docEvent hookMulA "f1" "save",
   EnvAction.docEvent hookMulA "f2" "save"]

/-- Trace refuting C5: a hook-driven write marks `f` as generated, after
which a file-system (create) event for `f` arrives. -/
def c5Trace : List EnvAction :=
  [EnvAction.docEvent hookMulA "f" "save",
   EnvAction.resume 0 (AIResult.ok none),
   EnvAction.fsEvent hookMulB "f" "create"]

/-- Trace used by the C6 witness: a single-mode hook triggered twice for
the same file; the second trigger arrives while it is running. -/
def c6Trace : List EnvAction :=
  [EnvAction.tick 6000,
   EnvAction.docEvent hookSgl "f.ts" "save",
   EnvAction.docEvent hookSgl "f.ts" "save"]

/-- Hooks of the C8 priority scenario. -/
def hookPrioA : Hook := ⟨"hookPA", "A", "**/*", HookExecutionMode.multiple, 1⟩

/-- Priority-10 hook of the C8 scenario. -/
def hookPrioB : Hook := ⟨"hookPB", "B", "**/*", HookExecutionMode.multiple, 10⟩

/-- Priority-5 hook of the C8 scenario. -/
def hookPrioC : Hook := ⟨"hookPC", "C", "**/*", HookExecutionMode.multiple, 5⟩

/-- Queue-mutation part of `enqueueHookExecution` (push then stable
re-sort, lines 281-285), used to state what a sequence of enqueues alone
does to one file's queue. -/
def enqueueOp (q : List (Hook × TriggerCtx)) (e : Hook × TriggerCtx) :
    List (Hook × TriggerCtx) :=
  sortByPriorityDesc (q ++ [e])

/-- The C8 queue: A(1), B(10), C(5) enqueued in that order for file `f`
before any drain runs. -/
def c8Queue : List (Hook × TriggerCtx) :=
  enqueueOp (enqueueOp (enqueueOp [] (hookPrioA, ⟨"save", "f", true⟩))
    (hookPrioB, ⟨"save", "f", true⟩)) (hookPrioC, ⟨"save", "f", true⟩)

/-- State whose only content is the C8 queue. -/
def c8State : ExecState :=
  { initState with executionQueue := [("f", c8Queue)] }

/-- Full C8 run: the drain starts on the pre-filled queue and every
execution and pacing delay is resumed to completion. -/
def c8Final : ExecState :=
  run (withTask (processExecutionQueue c8State "f"))
    [EnvAction.resume 0 (AIResult.ok none), EnvAction.resume 0 AIResult.err,
     EnvAction.resume 0 (AIResult.ok none), EnvAction.resume 0 AIResult.err,
     EnvAction.resume 0 (AIResult.ok none), EnvAction.resume 0 AIResult.err]

/-- Hooks of the C9 draining scenario. -/
def hookDrain1 : Hook := ⟨"hookD1", "D1", "**/*", HookExecutionMode.multiple, 50⟩

/-- Second hook of the C9 scenario (this one's execution will fail). -/
def hookDrain2 : Hook := ⟨"hookD2", "D2", "**/*", HookExecutionMode.multiple, 50⟩

/-- Third hook of the C9 scenario. -/
def hookDrain3 : Hook := ⟨"hookD3", "D3", "**/*", HookExecutionMode.multiple, 50⟩

/-- The C9 queue: three equal-priority hooks enqueued for file `f`. -/
def c9Queue : List (Hook × TriggerCtx) :=
  enqueueOp (enqueueOp (enqueueOp [] (hookDrain1, ⟨"save", "f", true⟩))
    (hookDrain2, ⟨"save", "f", true⟩)) (hookDrain3, ⟨"save", "f", true⟩)

/-- State whose only content is the C9 queue. -/
def c9State : ExecState :=
  { initState with executionQueue := [("f", c9Queue)] }

/-- Full C9 run: the middle execution throws (`err`), the others succeed;
all pacing delays are resumed. -/
def c9Final : ExecState :=
  run (withTask (processExecutionQueue c9State "f"))
    [EnvAction.resume 0 (AIResult.ok none), EnvAction.resume 0 AIResult.err,
     EnvAction.resume 0 AIResult.err, EnvAction.resume 0 AIResult.err,
     EnvAction.resume 0 (AIResult.ok none), EnvAction.resume 0 AIResult.err]

/-! ## Helper lemmas about the map and set embeddings -/

theorem alookup_aset_self {α : Type} (m : List (String × α)) (k : String) (v : α) :
    alookup (aset m k v) k = some v := by
  induction m with
  | nil => simp [aset, alookup]
  | cons kv r ih =>
    obtain ⟨k0, v0⟩ := kv
    simp only [aset]
    by_cases h : k0 = k
    · rw [if_pos h]
      simp only [alookup]
      rw [if_pos h]
    · rw [if_neg h]
      simp only [alookup]
      rw [if_neg h, ih]

theorem alookup_aset_ne {α : Type} (m : List (String × α)) (k k' : String) (v : α)
    (h : k' ≠ k) : alookup (aset m k v) k' = alookup m k' := by
  induction m with
  | nil =>
    simp only [aset, alookup]
    rw [if_neg (fun he => h he.symm)]
  | cons kv r ih =>
    obtain ⟨k0, v0⟩ := kv
    simp only [aset]
    by_cases h0 : k0 = k
    · rw [if_pos h0]
      simp only [alookup]
      rw [if_neg (fun he : k0 = k' => h (he ▸ h0)), if_neg (fun he : k0 = k' => h (he ▸ h0))]
    · rw [if_neg h0]
      simp only [alookup]
      by_cases h1 : k0 = k'
      · rw [if_pos h1, if_pos h1]
      · rw [if_neg h1, if_neg h1, ih]

theorem alookup_aerase_ne {α : Type} (m : List (String × α)) (k k' : String)
    (h : k' ≠ k) : alookup (aerase m k) k' = alookup m k' := by
  induction m with
  | nil => simp [aerase]
  | cons kv r ih =>
    obtain ⟨k0, v0⟩ := kv
    simp only [aerase]
    by_cases h0 : k0 = k
    · rw [if_pos h0]
      simp only [alookup]
      rw [if_neg (fun he : k0 = k' => h (he ▸ h0))]
    · rw [if_neg h0]
      simp only [alookup]
      by_cases h1 : k0 = k'
      · rw [if_pos h1, if_pos h1]
      · rw [if_neg h1, if_neg h1, ih]

theorem aerase_sublist {α : Type} (m : List (String × α)) (k : String) :
    (aerase m k).Sublist m := by
  induction m with
  | nil => simp [aerase]
  | cons kv r ih =>
    obtain ⟨k0, v0⟩ := kv
    simp only [aerase]
    by_cases h0 : k0 = k
    · rw [if_pos h0]
      exact (List.sublist_cons_self _ _)
    · rw [if_neg h0]
      exact ih.cons₂ (k0, v0)

theorem alookup_eq_none_of_not_mem_keys {α : Type} (m : List (String × α)) (k : String)
    (h : k ∉ m.map Prod.fst) : alookup m k = none := by
  induction m with
  | nil => rfl
  | cons kv r ih =>
    obtain ⟨k0, v0⟩ := kv
    simp only [List.map_cons, List.mem_cons, not_or] at h
    simp only [alookup]
    rw [if_neg (fun he => h.1 he.symm), ih h.2]

theorem keys_aerase_of_nodup {α : Type} (m : List (String × α)) (k : String)
    (h : (m.map Prod.fst).Nodup) : k ∉ (aerase m k).map Prod.fst := by
  induction m with
  | nil => simp [aerase]
  | cons kv r ih =>
    obtain ⟨k0, v0⟩ := kv
    simp only [List.map_cons, List.nodup_cons] at h
    simp only [aerase]
    by_cases h0 : k0 = k
    · rw [if_pos h0]
      exact fun hmem => h.1 (h0 ▸ hmem)
    · rw [if_neg h0]
      simp only [List.map_cons, List.mem_cons]
      rintro (rfl | hmem)
      · exact h0 rfl
      · exact ih h.2 hmem

theorem alookup_aerase_self {α : Type} (m : List (String × α)) (k : String)
    (h : (m.map Prod.fst).Nodup) : alookup (aerase m k) k = none :=
  alookup_eq_none_of_not_mem_keys _ _ (keys_aerase_of_nodup m k h)

theorem smem_iff (l : List String) (x : String) : smem l x = true ↔ x ∈ l := by
  simp [smem, List.contains, List.elem_iff]

theorem alookup_mem_keys {α : Type} (m : List (String × α)) (k : String) (v : α)
    (h : alookup m k = some v) : k ∈ m.map Prod.fst := by
  induction m with
  | nil => simp [alookup] at h
  | cons kv r ih =>
    obtain ⟨k0, v0⟩ := kv
    by_cases h0 : k0 = k
    · simp [h0]
    · simp only [alookup] at h
      rw [if_neg h0] at h
      simp [ih h]

theorem startsWithL_self_append (p q : List Char) : startsWithL p (p ++ q) = true := by
  induction p with
  | nil => rfl
  | cons c cs ih => simp [startsWithL, ih]

theorem mem_keys_alookup_isSome {α : Type} (m : List (String × α)) (k : String)
    (h : k ∈ m.map Prod.fst) : (alookup m k).isSome = true := by
  induction m with
  | nil => simp at h
  | cons kv r ih =>
    obtain ⟨k0, v0⟩ := kv
    by_cases h0 : k0 = k
    · simp [alookup, h0]
    · simp only [List.map_cons, List.mem_cons] at h
      rcases h with h | h
    
      · exact absurd h.symm h0
      · simp only [alookup]
        rw [if_neg h0]
        exact ih h

theorem foldl_aerase_sublist {α : Type} (ks : List String) (m : List (String × α)) :
    (ks.foldl aerase m).Sublist m := by
  induction ks generalizing m with
  | nil => simp
  | cons k0 ks ih => exact (ih (aerase m k0)).trans (aerase_sublist m k0)

theorem not_mem_keys_foldl_aerase {α : Type} (ks : List String) (m : List (String × α))
    (k : String) (hnd : (m.map Prod.fst).Nodup) (hk : k ∈ ks) :
    k ∉ (ks.foldl aerase m).map Prod.fst := by
  induction ks generalizing m with
  | nil => simp at hk
  | cons k0 ks ih =>
    have hsub : ((aerase m k0).map Prod.fst).Sublist (m.map Prod.fst) :=
      (aerase_sublist m k0).map Prod.fst
    rcases List.mem_cons.mp hk with rfl | hk
    · intro hmem
      have hsub2 : ((ks.foldl aerase (aerase m k)).map Prod.fst).Sublist
          ((aerase m k).map Prod.fst) := (foldl_aerase_sublist ks (aerase m k)).map Prod.fst
      exact keys_aerase_of_nodup m k hnd (hsub2.mem hmem)
    · exact ih (aerase m k0) (hnd.sublist hsub) hk

theorem alookup_foldl_aerase_not_mem {α : Type} (ks : List String) (m : List (String × α))
    (k : String) (hk : k ∉ ks) :
    alookup (ks.foldl aerase m) k = alookup m k := by
  induction ks generalizing m with
  | nil => rfl
  | cons k0 ks ih =>
    simp only [List.mem_cons, not_or] at hk
    simp only [List.foldl_cons]
    rw [ih (aerase m k0) hk.2, alookup_aerase_ne m k0 k hk.1]

theorem mem_foldl_erase_not_mem (ks l : List String) (k : String) (hk : k ∉ ks) :
    k ∈ ks.foldl List.erase l ↔ k ∈ l := by
  induction ks generalizing l with
  | nil => simp
  | cons k0 ks ih =>
    simp only [List.mem_cons, not_or] at hk
    simp only [List.foldl_cons]
    rw [ih (l.erase k0) hk.2, List.mem_erase_of_ne hk.1]

theorem foldl_erase_sublist (ks l : List String) : (ks.foldl List.erase l).Sublist l := by
  induction ks generalizing l with
  | nil => simp
  | cons k0 ks ih => exact (ih (l.erase k0)).trans (List.erase_sublist k0 l)

theorem not_mem_foldl_erase (ks l : List String) (k : String) (hnd : l.Nodup)
    (hk : k ∈ ks) : k ∉ ks.foldl List.erase l := by
  induction ks generalizing l with
  | nil => simp at hk
  | cons k0 ks ih =>
    rcases List.mem_cons.mp hk with rfl | hk
    · intro hmem
      exact hnd.not_mem_erase ((foldl_erase_sublist ks (l.erase k)).mem hmem)
    · exact ih (l.erase k0) (hnd.erase k0) hk

/-- C7, counterexample: with no recorded entry for the key and a clock
below the 5-second window (here the initial clock 0),
`canExecuteAfterCooldown` returns false even though no entry exists —
the code substitutes 0 for a missing entry (`get(key) || 0`), so the
claim's "true otherwise, including when no entry exists" fails. -/
theorem C7_counterexample :
    alookup initState.lastExecution (hookFileKey "h1" "f1") = none ∧
      canExecuteAfterCooldown initState (hookFileKey "h1" "f1") = false := by
  exact ⟨rfl, rfl⟩

/-- C7 (amended): `canExecuteAfterCooldown` returns false exactly when
`now` minus the recorded last-run time — taken as 0 when no entry exists —
is below the 5-second window; reset with a file path clears exactly that
one key of the cooldown map; reset without one clears the key of every
file of that hook id; afterwards (and provided at least one window has
elapsed on the clock, which covers the missing-entry reading of 0) a
subsequent trigger for the same (hook, file) passes the cooldown check. -/
theorem C7_cooldown_amended (s : ExecState) (hookId fp : String)
    (hnd : (s.lastExecution.map Prod.fst).Nodup) :
    (∀ k, canExecuteAfterCooldown s k = false ↔
        s.now - ((alookup s.lastExecution k).getD 0) < COOLDOWN_MS)
    ∧ (alookup (resetCooldown s hookId (some fp)).lastExecution (hookFileKey hookId fp) = none
        ∧ ∀ k, k ≠ hookFileKey hookId fp →
          alookup (resetCooldown s hookId (some fp)).lastExecution k = alookup s.lastExecution k)
    ∧ (∀ f, alookup (resetCooldown s hookId none).lastExecution (hookFileKey hookId f) = none)
    ∧ (COOLDOWN_MS ≤ s.now →
        canExecuteAfterCooldown (resetCooldown s hookId (some fp)) (hookFileKey hookId fp) = true
        ∧ ∀ f, canExecuteAfterCooldown (resetCooldown s hookId none) (hookFileKey hookId f) = true) := by
  have hnone : ∀ f, alookup (resetCooldown s hookId none).lastExecution (hookFileKey hookId f) = none := by
    intro f
    show alookup (((s.lastExecution.map Prod.fst).filter
      (fun k => startsWithL (hookId ++ ":").data k.data)).foldl aerase s.lastExecution) _ = none
    by_cases hmem : hookFileKey hookId f ∈ s.lastExecution.map Prod.fst
    · apply alookup_eq_none_of_not_mem_keys
      apply not_mem_keys_foldl_aerase _ _ _ hnd
      apply List.mem_filter.mpr
      refine ⟨hmem, ?_⟩
      show startsWithL (hookId ++ ":").data (hookFileKey hookId f).data = true
      have : (hookFileKey hookId f).data = (hookId ++ ":").data ++ f.data := by
        show ((hookId ++ ":") ++ f).data = _
        rw [String.data_append]
      rw [this]
      exact startsWithL_self_append _ _
    · apply alookup_eq_none_of_not_mem_keys
      intro hmem2
      exact hmem (((foldl_aerase_sublist _ _).map Prod.fst).mem hmem2)
  refine ⟨?_, ⟨?_, ?_⟩, hnone, ?_⟩
  · intro k
    show (if s.now - ((alookup s.lastExecution k).getD 0) < COOLDOWN_MS
        then false else true) = false ↔ _
    by_cases hc : s.now - ((alookup s.lastExecution k).getD 0) < COOLDOWN_MS
    · simp [hc]
    · simp [hc]
  · exact alookup_aerase_self _ _ hnd
  · intro k hk
    exact alookup_aerase_ne _ _ _ hk
  · intro hwin
    constructor
    · show (if s.now - ((alookup (aerase s.lastExecution (hookFileKey hookId fp))
          (hookFileKey hookId fp)).getD 0) < COOLDOWN_MS then false else true) = true
      rw [alookup_aerase_self _ _ hnd]
      simp only [Option.getD_none, Nat.sub_zero]
      rw [if_neg (by omega)]
    · intro f
      show (if ((resetCooldown s hookId none).now -
          ((alookup (resetCooldown s hookId none).lastExecution
            (hookFileKey hookId f)).getD 0)) < COOLDOWN_MS then false else true) = true
      rw [hnone f]
      simp only [Option.getD_none, Nat.sub_zero]
      have hn : (resetCooldown s hookId none).now = s.now := rfl
      rw [hn, if_neg (by omega)]

/-- C7 witness: the amended theorem applied to a concrete state. -/
theorem C7_witness :
    canExecuteAfterCooldown
      (resetCooldown
        { initState with
            now := 6000
            lastExecution := [(hookFileKey "h" "f", 100), ("h:g", 7), ("x:z", 8)] }
        "h" (some "f"))
      (hookFileKey "h" "f") = true := by
  have h := C7_cooldown_amended
    { initState with
        now := 6000
        lastExecution := [(hookFileKey "h" "f", 100), ("h:g", 7), ("x:z", 8)] }
    "h" "f" (by decide)
  exact (h.2.2.2 (by decide)).1

/-- C10: `resetCooldown` with a file path removes both the cooldown entry
and the processing marker of that exact `(hookId, filePath)` key (so it
can clear the re-entrancy guard of an execution still inside its guarded
section) and touches no other key; the no-path variant removes both for
every key of that hook that currently has a cooldown entry, while a
processing marker whose key has no cooldown entry is left untouched. -/
theorem C10_resetCooldown_frame (s : ExecState) (hookId fp : String)
    (hndL : (s.lastExecution.map Prod.fst).Nodup) (hndP : s.processingFiles.Nodup) :
    (alookup (resetCooldown s hookId (some fp)).lastExecution (hookFileKey hookId fp) = none
      ∧ hookFileKey hookId fp ∉ (resetCooldown s hookId (some fp)).processingFiles)
    ∧ (∀ k, k ≠ hookFileKey hookId fp →
        alookup (resetCooldown s hookId (some fp)).lastExecution k = alookup s.lastExecution k
        ∧ (k ∈ (resetCooldown s hookId (some fp)).processingFiles ↔ k ∈ s.processingFiles))
    ∧ (∀ f, (hookFileKey hookId f) ∈ s.lastExecution.map Prod.fst →
        alookup (resetCooldown s hookId none).lastExecution (hookFileKey hookId f) = none
        ∧ (hookFileKey hookId f) ∉ (resetCooldown s hookId none).processingFiles)
    ∧ (∀ k, alookup s.lastExecution k = none →
        (k ∈ (resetCooldown s hookId none).processingFiles ↔ k ∈ s.processingFiles)) := by
  have hkeymem : ∀ f, (hookFileKey hookId f) ∈ s.lastExecution.map Prod.fst →
      (hookFileKey hookId f) ∈ (s.lastExecution.map Prod.fst).filter
        (fun k => startsWithL (hookId ++ ":").data k.data) := by
    intro f hf
    apply List.mem_filter.mpr
    refine ⟨hf, ?_⟩
    show startsWithL (hookId ++ ":").data (hookFileKey hookId f).data = true
    have hd : (hookFileKey hookId f).data = (hookId ++ ":").data ++ f.data := by
      show ((hookId ++ ":") ++ f).data = _
      rw [String.data_append]
    rw [hd]
    exact startsWithL_self_append _ _
  refine ⟨⟨?_, ?_⟩, ?_, ?_, ?_⟩
  · exact alookup_aerase_self _ _ hndL
  · exact hndP.not_mem_erase
  · intro k hk
    exact ⟨alookup_aerase_ne _ _ _ hk, List.mem_erase_of_ne hk⟩
  · intro f hf
    constructor
    · exact alookup_eq_none_of_not_mem_keys _ _
        (not_mem_keys_foldl_aerase _ _ _ hndL (hkeymem f hf))
    · exact not_mem_foldl_erase _ _ _ hndP (hkeymem f hf)
  · intro k hk
    apply mem_foldl_erase_not_mem
    intro hmem
    have := mem_keys_alookup_isSome s.lastExecution k (List.mem_of_mem_filter hmem)
    rw [hk] at this
    exact Bool.noConfusion this

/-- C10 witness: the frame theorem applied to a concrete state in which an
execution is inside its guarded section (its marker is set). -/
theorem C10_witness :
    hookFileKey "h" "f" ∉
      (resetCooldown
        { initState with
            lastExecution := [(hookFileKey "h" "f", 100), ("q:z", 8)]
            processingFiles := [hookFileKey "h" "f", "q:w"] }
        "h" (some "f")).processingFiles := by
  have h := C10_resetCooldown_frame
    { initState with
        lastExecution := [(hookFileKey "h" "f", 100), ("q:z", 8)]
        processingFiles := [hookFileKey "h" "f", "q:w"] }
    "h" "f" (by decide) (by decide)
  exact h.1.2

/-- C4, counterexample: with hook `hookA` already holding a live handle
(execution 0 for `f1` is still live and was never cancelled), the second
trigger's `executeHook` does not fail: it silently replaces the stored
controller with the new execution's (id 1), both executions stay live and
two `begin` notifications were emitted. -/
theorem C4_counterexample :
    alookup (run initState c4Trace).runningHooks "hookA" = some 1
    ∧ (run initState c4Trace).abortedCtrls = []
    ∧ liveExecsFor (run initState c4Trace) "f1" = 1
    ∧ liveExecsFor (run initState c4Trace) "f2" = 1
    ∧ beginsOf (run initState c4Trace) = ["hookA", "hookA"] := by decide

/-- C4 (amended): the begin step of `executeHook` never fails on an
existing live handle — with a controller already registered for the hook
id it still creates a fresh controller, silently replaces the stored one
(`Map.set`), emits "running" and proceeds; the replaced controller is not
cancelled by this. -/
theorem C4_begin_replaces (s : ExecState) (key : String) (hook : Hook) (ctx : TriggerCtx)
    (ctrl : Nat) (hlive : alookup s.runningHooks hook.id = some ctrl) :
    alookup (executeHookStart s key hook ctx).1.runningHooks hook.id = some s.nextEid
    ∧ (executeHookStart s key hook ctx).1.abortedCtrls = s.abortedCtrls
    ∧ (executeHookStart s key hook ctx).2 = TaskK.aiCall key s.nextEid hook ctx
    ∧ (executeHookStart s key hook ctx).1.log = LogEv.beginEv s.nextEid hook.id ctx.file :: s.log := by
  refine ⟨?_, rfl, rfl, rfl⟩
  exact alookup_aset_self _ _ _

/-- C4 witness: the begin step applied in a state whose registry already
holds a live handle for the hook. -/
theorem C4_witness :
    alookup
      (executeHookStart (run initState [EnvAction.docEvent hookMulA "f1" "save"])
        "f2" hookMulA ⟨"save", "f2", true⟩).1.runningHooks hookMulA.id
      = some (run initState [EnvAction.docEvent hookMulA "f1" "save"]).nextEid := by
  have h := C4_begin_replaces (run initState [EnvAction.docEvent hookMulA "f1" "save"])
    "f2" hookMulA ⟨"save", "f2", true⟩ 0 (by decide)
  exact h.1

/-- C5, counterexample: hook `hookA` writes file `f` (marking it
generated); a subsequent file-system `create` event for `f` is not
discarded — `hookB` starts an execution — and the marker is not consumed
(it is still present), contradicting "the event is discarded before
pattern matching regardless of ... which hook the event is for". -/
theorem C5_counterexample :
    (run initState c5Trace).hookGeneratedFiles = ["f"]
    ∧ beginsOf (run initState c5Trace) = ["hookA", "hookB"]
    ∧ liveExecsFor (run initState c5Trace) "f" = 1 := by decide

/-- C5 (amended): a text-document event (save / change / open) for a
marked file is discarded before pattern matching, regardless of hook or
pattern, and that same check consumes the marker, so the next
text-document event is processed normally — each marker suppresses
exactly one subsequent text-document event; file-system (create / delete)
events never consult the marker and are dispatched on pattern alone. -/
theorem C5_suppression_amended (s : ExecState) (h1 h2 : Hook) (p et1 et2 : String)
    (hmark : smem s.hookGeneratedFiles p = true) (hnd : s.hookGeneratedFiles.Nodup) :
    (handleFileEvent s h1 p et1 =
        ({ s with hookGeneratedFiles := s.hookGeneratedFiles.erase p }, none))
    ∧ smem (s.hookGeneratedFiles.erase p) p = false
    ∧ (matchesFilePattern p h2 = true →
        handleFileEvent { s with hookGeneratedFiles := s.hookGeneratedFiles.erase p } h2 p et2
          = enqueueHookExecution { s with hookGeneratedFiles := s.hookGeneratedFiles.erase p }
              p h2 ⟨et2, p, true⟩)
    ∧ (matchesFilePattern p h2 = true →
        handleFileSystemEvent s h2 p et2 = enqueueHookExecution s p h2 ⟨et2, p, false⟩) := by
  have herased : smem (s.hookGeneratedFiles.erase p) p = false := by
    rw [Bool.eq_false_iff]
    intro hc
    exact hnd.not_mem_erase ((smem_iff _ _).mp hc)
  refine ⟨?_, herased, ?_, ?_⟩
  · simp only [handleFileEvent, hmark, if_true]
  · intro hm
    simp only [handleFileEvent]
    rw [herased]
    simp only [Bool.false_eq_true, if_false]
    rw [hm]
    simp
  · intro hm
    simp only [handleFileSystemEvent]
    rw [hm]
    simp

/-- C5 witness: the amended suppression round-trip applied to a concrete
marked state. -/
theorem C5_witness :
    handleFileEvent { initState with hookGeneratedFiles := ["f"] } hookMulB "f" "save"
      = ({ { initState with hookGeneratedFiles := ["f"] } with
            hookGeneratedFiles := (["f"] : List String).erase "f" }, none) := by
  have h := C5_suppression_amended { initState with hookGeneratedFiles := ["f"] }
    hookMulB hookMulA "f" "save" "save" (by decide) (by decide)
  exact h.1

/-- C3, counterexample: restart-mode hook `hookR` runs for `f1`
(execution 0); a trigger for `f2` cancels controller 0 and, after the
delay, starts execution 1; then execution 0 settles.  Its cleanup deletes
the registry entry for the hook id — which now holds execution 1's handle
— so the newest execution is still live (and never emitted an `end`) while
`isRunning` reports false: the final registry state does not reflect the
newest execution's lifecycle, and execution 0's "end" removed a handle
that was not its own. -/
theorem C3_counterexample :
    alookup (run initState c3Trace).runningHooks "hookR" = none
    ∧ (run initState c3Trace).tasks = [TaskK.aiCall "f2" 1 hookRst ⟨"save", "f2", true⟩]
    ∧ (run initState c3Trace).abortedCtrls = [0]
    ∧ endsOf (run initState c3Trace) = [0] := by decide

/-- C3 (amended): a trigger for a running restart-mode hook cancels the
registered controller and suspends for the fixed delay; after the delay
a new execution begins — its handle replacing the registered one — only
when the `(hook, file)` re-entrancy marker is clear, while a same-file
re-trigger whose old run is still inside its guarded section (cancelling
does not hasten its settling) is dropped entirely: no registry change,
no `begin`, no new execution.  Every settling execution emits exactly
one `end`, but its cleanup deletes the registry entry for the hook id
unconditionally rather than its own handle — so when the old run settles
after a new one started, it removes the new execution's handle and
`isRunning` reports false while the newest execution is still live. -/
theorem C3_restart_amended :
    (∀ (s : ExecState) (key : String) (hook : Hook) (ctx : TriggerCtx) (ctrl : Nat),
      hook.executionMode = HookExecutionMode.restart →
      alookup s.runningHooks hook.id = some ctrl →
      scheduleHookExecution s key hook ctx =
        ({ s with abortedCtrls := ctrl :: s.abortedCtrls },
          some (TaskK.restartSleep key hook ctx)))
    ∧ (∀ (s : ExecState) (i : Nat) (res : AIResult) (key : String) (eid : Nat)
        (hook : Hook) (ctx : TriggerCtx),
        s.tasks.get? i = some (TaskK.aiCall key eid hook ctx) →
        (resumeTask s i res).runningHooks = aerase s.runningHooks hook.id
        ∧ (resumeTask s i res).log = LogEv.endEv eid hook.id :: s.log)
    ∧ (∀ (s : ExecState) (i : Nat) (res : AIResult) (key : String)
        (hook : Hook) (ctx : TriggerCtx),
        s.tasks.get? i = some (TaskK.restartSleep key hook ctx) →
        smem s.processingFiles (hookFileKey hook.id ctx.file) = false →
        alookup (resumeTask s i res).runningHooks hook.id = some s.nextEid
        ∧ (resumeTask s i res).tasks =
            (s.tasks.eraseIdx i) ++ [TaskK.aiCall key s.nextEid hook ctx])
    ∧ (∀ (s : ExecState) (i : Nat) (res : AIResult) (key : String)
        (hook : Hook) (ctx : TriggerCtx),
        s.tasks.get? i = some (TaskK.restartSleep key hook ctx) →
        smem s.processingFiles (hookFileKey hook.id ctx.file) = true →
        (resumeTask s i res).runningHooks = s.runningHooks
        ∧ (resumeTask s i res).log = s.log
        ∧ (resumeTask s i res).nextEid = s.nextEid
        ∧ ((resumeTask s i res).tasks = s.tasks.eraseIdx i
           ∨ (resumeTask s i res).tasks = s.tasks.eraseIdx i ++ [TaskK.pacing key])) := by
  refine ⟨?_, ?_, ?_, ?_⟩
  · intro s key hook ctx ctrl hmode hreg
    simp only [scheduleHookExecution, hmode, hreg, Option.isSome_some, if_true,
      stopRunningHook]
  · intro s i res key eid hook ctx hget
    simp only [resumeTask, hget]
    have hrun : ∀ (s2 : ExecState) (tk : Option TaskK), (withTask (s2, tk)).runningHooks
        = s2.runningHooks := by
      intro s2 tk
      cases tk <;> rfl
    have hlog : ∀ (s2 : ExecState) (tk : Option TaskK), (withTask (s2, tk)).log = s2.log := by
      intro s2 tk
      cases tk <;> rfl
    constructor
    · simp only [executeHookFinish]
      cases hmg : markGeneratedPath ctx res
          (({ s with tasks := s.tasks.eraseIdx i }).abortedCtrls.contains eid) with
      | none =>
        simp only [afterScheduleInQueue]
        cases halq : alookup ({ s with tasks := s.tasks.eraseIdx i }).executionQueue key with
        | none => simp [withTask]
        | some q => cases q <;> simp [withTask]
      | some p =>
        simp only [afterScheduleInQueue]
        cases halq : alookup ({ s with tasks := s.tasks.eraseIdx i }).executionQueue key with
        | none => simp [withTask]
        | some q => cases q <;> simp [withTask]
    · simp only [executeHookFinish]
      cases hmg : markGeneratedPath ctx res
          (({ s with tasks := s.tasks.eraseIdx i }).abortedCtrls.contains eid) with
      | none =>
        simp only [afterScheduleInQueue]
        cases halq : alookup ({ s with tasks := s.tasks.eraseIdx i }).executionQueue key with
        | none => simp [withTask]
        | some q => cases q <;> simp [withTask]
      | some p =>
        simp only [afterScheduleInQueue]
        cases halq : alookup ({ s with tasks := s.tasks.eraseIdx i }).executionQueue key with
        | none => simp [withTask]
        | some q => cases q <;> simp [withTask]
  · intro s i res key hook ctx hget hproc
    simp only [resumeTask, hget, resumeRestartSleep, executeHookWithChecks, hproc,
      Bool.false_eq_true, if_false, executeHookStart, withTask]
    refine ⟨alookup_aset_self _ _ _, by simp⟩
  · intro s i res key hook ctx hget hproc
    simp only [resumeTask, hget, resumeRestartSleep, executeHookWithChecks, hproc, if_true,
      afterScheduleInQueue]
    cases halq : alookup ({ s with tasks := s.tasks.eraseIdx i }).executionQueue key with
    | none => simp [halq, withTask]
    | some q =>
      cases q with
      | nil => simp [halq, withTask]
      | cons e qr => simp [halq, withTask]

/-- C3 witness: the restart branch applied in a concrete state where the
hook is running. -/
theorem C3_witness :
    scheduleHookExecution (run initState [EnvAction.docEvent hookRst "f1" "save"])
      "f2" hookRst ⟨"save", "f2", true⟩ =
      ({ run initState [EnvAction.docEvent hookRst "f1" "save"] with
          abortedCtrls := 0 :: (run initState [EnvAction.docEvent hookRst "f1" "save"]).abortedCtrls },
        some (TaskK.restartSleep "f2" hookRst ⟨"save", "f2", true⟩)) := by
  exact C3_restart_amended.1 (run initState [EnvAction.docEvent hookRst "f1" "save"])
    "f2" hookRst ⟨"save", "f2", true⟩ 0 rfl (by decide)

/-- C1, counterexample: hook `hookA` (mode `multiple`) is live for
`f.ts`; a second text-document event for the same file from `hookB` finds
the per-file queue present but momentarily empty (its only entry was
already shifted by the suspended drain), so the enqueue observes length 1
and starts a second drain loop, which begins a second execution for the
same file: two executions dequeued from the same path's queue are live at
once, and neither has ended. -/
theorem C1_counterexample :
    liveExecsFor (run initState c1Trace) "f.ts" = 2
    ∧ endsOf (run initState c1Trace) = [] := by decide

/-- C1 (amended): the per-file queue serializes only the executions
dequeued by one drain pass; an event that arrives while the drain for the
path is suspended inside an execution finds the queue present but empty,
so its enqueue makes the length 1 and starts a second, concurrent drain
for the same path, which immediately begins another execution — hence
executions for the same file path can overlap. -/
theorem C1_overlap_amended (s : ExecState) (hook : Hook) (p et : String)
    (hq : alookup s.executionQueue p = some [])
    (hgen : smem s.hookGeneratedFiles p = false)
    (hpat : matchesFilePattern p hook = true)
    (hmode : hook.executionMode = HookExecutionMode.multiple)
    (hproc : smem s.processingFiles (hookFileKey hook.id p) = false) :
    liveExecsFor (step s (EnvAction.docEvent hook p et)) p = liveExecsFor s p + 1 := by
  simp only [step, handleFileEvent, hgen, Bool.false_eq_true, if_false, hpat, if_true]
  simp only [enqueueHookExecution, hq, Option.getD_some, List.nil_append,
    sortByPriorityDesc, insertByPriority, List.length_cons, List.length_nil, if_pos rfl]
  simp only [processExecutionQueue]
  rw [alookup_aset_self]
  simp only [drainIterate, scheduleHookExecution, hmode]
  simp only [executeHookWithChecks]
  rw [hproc]
  simp only [Bool.false_eq_true, if_false, executeHookStart, withTask,
    liveExecsFor, List.filter_append, List.length_append]
  simp [isLiveExecOf]

/-- C1 witness: the amended overlap theorem applied in the concrete state
reached after the first event of `c1Trace` (queue for `f.ts` present but
empty, first execution suspended). -/
theorem C1_witness :
    liveExecsFor
      (step (run initState [EnvAction.docEvent hookMulA "f.ts" "save"])
        (EnvAction.docEvent hookMulB "f.ts" "save")) "f.ts"
      = liveExecsFor (run initState [EnvAction.docEvent hookMulA "f.ts" "save"]) "f.ts" + 1 := by
  exact C1_overlap_amended (run initState [EnvAction.docEvent hookMulA "f.ts" "save"])
    hookMulB "f.ts" "save" (by decide) (by decide) (by decide) rfl (by decide)

theorem insertByPriority_cons_ge (x y : Hook × TriggerCtx) (l : List (Hook × TriggerCtx))
    (h : x.1.priority ≥ y.1.priority) : insertByPriority x (y :: l) = x :: y :: l := by
  simp [insertByPriority, if_pos h]

theorem insertByPriority_all_le (x : Hook × TriggerCtx) (l : List (Hook × TriggerCtx))
    (h : ∀ y ∈ l, y.1.priority ≤ x.1.priority) : insertByPriority x l = x :: l := by
  cases l with
  | nil => rfl
  | cons y ys => exact insertByPriority_cons_ge x y ys (h y (List.mem_cons_self y ys))

/-- Stable-insert characterization of the per-enqueue re-sort: appending a
new entry to a priority-descending queue and re-sorting places it after
every entry of priority at least its own (ties keep first-enqueued order)
and before every entry of strictly lower priority. -/
theorem enqueueOp_sorted (q : List (Hook × TriggerCtx)) (e : Hook × TriggerCtx)
    (h : sortedPrioDesc q) :
    enqueueOp q e =
      q.takeWhile (fun x => decide (x.1.priority ≥ e.1.priority)) ++
        e :: q.dropWhile (fun x => decide (x.1.priority ≥ e.1.priority)) := by
  unfold enqueueOp
  induction q with
  | nil => rfl
  | cons x q' ih =>
    have hpair := (List.pairwise_cons.mp h)
    have hx : ∀ y ∈ q', y.1.priority ≤ x.1.priority := hpair.1
    have hsorted : sortedPrioDesc q' := hpair.2
    have ihq := ih hsorted
    show insertByPriority x (sortByPriorityDesc (q' ++ [e])) = _
    rw [ihq]
    by_cases hxe : x.1.priority ≥ e.1.priority
    · have hd : decide (x.1.priority ≥ e.1.priority) = true := decide_eq_true hxe
      rw [List.takeWhile_cons, List.dropWhile_cons, hd]
      rw [if_pos rfl, if_pos rfl]
      cases htw : q'.takeWhile (fun y : Hook × TriggerCtx => decide (y.1.priority ≥ e.1.priority)) with
      | nil =>
        simp only [List.nil_append]
        exact insertByPriority_cons_ge x e _ hxe
      | cons y t =>
        have hy : y ∈ q' := (List.takeWhile_sublist _).subset
          (by rw [htw]; exact List.mem_cons_self y t)
        simp only [List.cons_append]
        exact insertByPriority_cons_ge x y _ (hx y hy)
    · have hlt : x.1.priority < e.1.priority := by omega
      have hd : decide (x.1.priority ≥ e.1.priority) = false := decide_eq_false hxe
      have htwnil : q'.takeWhile
          (fun y : Hook × TriggerCtx => decide (y.1.priority ≥ e.1.priority)) = [] := by
        cases hq' : q' with
        | nil => rfl
        | cons y ys =>
          have hy : y.1.priority ≤ x.1.priority := hx y (hq' ▸ List.mem_cons_self y ys)
          rw [List.takeWhile_cons]
          rw [decide_eq_false (by omega : ¬ (y.1.priority ≥ e.1.priority))]
          rw [if_neg (by simp)]
      have hdw : q'.dropWhile
          (fun y : Hook × TriggerCtx => decide (y.1.priority ≥ e.1.priority)) = q' := by
        have hcat := List.takeWhile_append_dropWhile
          (p := fun y : Hook × TriggerCtx => decide (y.1.priority ≥ e.1.priority)) (l := q')
        rw [htwnil] at hcat
        simpa using hcat
      rw [htwnil, hdw, List.takeWhile_cons, List.dropWhile_cons, hd]
      rw [if_neg (by simp), if_neg (by simp)]
      simp only [List.nil_append]
      simp only [insertByPriority]
      rw [if_neg hxe, insertByPriority_all_le x q' hx]

/-- C8: with A(priority 1), B(10), C(5) all enqueued for the same file
before any drain runs, the queue after the three enqueue re-sorts is
B, C, A, and the drain then begins and completes them in exactly that
order, deleting the queue at the end; in general every enqueue re-sort is
the stable descending insertion — entries with priority at least the new
entry's (so in particular earlier-enqueued ties) stay in front of it. -/
theorem C8_priority_order (q : List (Hook × TriggerCtx)) (e : Hook × TriggerCtx)
    (h : sortedPrioDesc q) :
    (enqueueOp q e =
      q.takeWhile (fun x => decide (x.1.priority ≥ e.1.priority)) ++
        e :: q.dropWhile (fun x => decide (x.1.priority ≥ e.1.priority)))
    ∧ c8Queue = [(hookPrioB, ⟨"save", "f", true⟩), (hookPrioC, ⟨"save", "f", true⟩),
        (hookPrioA, ⟨"save", "f", true⟩)]
    ∧ beginsOf c8Final = ["hookPB", "hookPC", "hookPA"]
    ∧ endsOf c8Final = [0, 1, 2]
    ∧ alookup c8Final.executionQueue "f" = none := by
  exact ⟨enqueueOp_sorted q e h, by decide, by decide, by decide, by decide⟩

/-- C8 witness: the stable-insert characterization applied to the
concrete sorted queue [B(10), A(1)] with C(5) arriving. -/
theorem C8_witness :
    enqueueOp [(hookPrioB, ⟨"save", "f", true⟩), (hookPrioA, ⟨"save", "f", true⟩)]
        (hookPrioC, ⟨"save", "f", true⟩)
      = [(hookPrioB, ⟨"save", "f", true⟩), (hookPrioC, ⟨"save", "f", true⟩),
          (hookPrioA, ⟨"save", "f", true⟩)] := by
  have h := C8_priority_order
    [(hookPrioB, ⟨"save", "f", true⟩), (hookPrioA, ⟨"save", "f", true⟩)]
    (hookPrioC, ⟨"save", "f", true⟩) (by unfold sortedPrioDesc; decide)
  rw [h.1]
  decide

theorem executeHookWithChecks_drop_eq (s : ExecState) (key : String) (hook : Hook)
    (ctx : TriggerCtx) (h : (executeHookWithChecks s key hook ctx).2 = none) :
    (executeHookWithChecks s key hook ctx).1 = s := by
  by_cases hp : smem s.processingFiles (hookFileKey hook.id ctx.file) = true
  · simp [executeHookWithChecks, hp]
  · rw [Bool.not_eq_true] at hp
    simp [executeHookWithChecks, hp, executeHookStart] at h

theorem scheduleHookExecution_drop_eq (s : ExecState) (key : String) (hook : Hook)
    (ctx : TriggerCtx) (h : (scheduleHookExecution s key hook ctx).2 = none) :
    (scheduleHookExecution s key hook ctx).1 = s := by
  cases hm : hook.executionMode with
  | multiple =>
    simp only [scheduleHookExecution, hm] at h ⊢
    exact executeHookWithChecks_drop_eq s key hook ctx h
  | single =>
    simp only [scheduleHookExecution, hm] at h ⊢
    by_cases h1 : (alookup s.runningHooks hook.id).isSome = true
    · simp [h1]
    · rw [Bool.not_eq_true] at h1
      simp only [h1, Bool.false_eq_true, if_false] at h ⊢
      by_cases h2 : canExecuteAfterCooldown s (hookFileKey hook.id ctx.file) = false
      · simp [h2]
      · rw [Bool.not_eq_false] at h2
        simp only [h2, Bool.true_eq_false, if_false] at h ⊢
        exact executeHookWithChecks_drop_eq s key hook ctx h
  | restart =>
    simp only [scheduleHookExecution, hm] at h ⊢
    by_cases h1 : (alookup s.runningHooks hook.id).isSome = true
    · simp [h1] at h
    · rw [Bool.not_eq_true] at h1
      simp only [h1, Bool.false_eq_true, if_false] at h ⊢
      exact executeHookWithChecks_drop_eq s key hook ctx h

theorem mem_keys_aset {α : Type} (m : List (String × α)) (k k' : String) (v : α) :
    k' ∈ (aset m k v).map Prod.fst ↔ k' ∈ m.map Prod.fst ∨ k' = k := by
  induction m with
  | nil => simp [aset]
  | cons kv r ih =>
    obtain ⟨k0, v0⟩ := kv
    by_cases h0 : k0 = k
    · subst h0
      simp only [aset, if_true]
      simp only [List.map_cons, List.mem_cons]
      tauto
    · simp only [aset]
      rw [if_neg h0]
      simp only [List.map_cons, List.mem_cons, ih]
      tauto

theorem keys_aset_nodup {α : Type} (m : List (String × α)) (k : String) (v : α)
    (h : (m.map Prod.fst).Nodup) : ((aset m k v).map Prod.fst).Nodup := by
  induction m with
  | nil => simp [aset]
  | cons kv r ih =>
    obtain ⟨k0, v0⟩ := kv
    simp only [List.map_cons, List.nodup_cons] at h
    by_cases h0 : k0 = k
    · subst h0
      simp only [aset, if_true]
      simp only [List.map_cons, List.nodup_cons]
      exact ⟨h.1, h.2⟩
    · simp only [aset]
      rw [if_neg h0]
      simp only [List.map_cons, List.nodup_cons]
      refine ⟨?_, ih h.2⟩
      rw [mem_keys_aset]
      rintro (hmem | rfl)
      · exact h.1 hmem
      · exact h0 rfl

theorem afterScheduleInQueue_none (s : ExecState) (key : String)
    (hnd : (s.executionQueue.map Prod.fst).Nodup)
    (h : (afterScheduleInQueue s key).2 = none) :
    alookup (afterScheduleInQueue s key).1.executionQueue key = none := by
  cases hq : alookup s.executionQueue key with
  | none => simpa [afterScheduleInQueue, hq] using hq
  | some q =>
    cases q with
    | nil =>
      simp only [afterScheduleInQueue, hq]
      exact alookup_aerase_self _ _ hnd
    | cons e rest => simp [afterScheduleInQueue, hq] at h

theorem drainLoopHead_none (s : ExecState) (key : String)
    (hnd : (s.executionQueue.map Prod.fst).Nodup)
    (h : (drainLoopHead s key).2 = none) :
    alookup (drainLoopHead s key).1.executionQueue key = none := by
  cases hq : alookup s.executionQueue key with
  | none => simpa [drainLoopHead, hq] using hq
  | some q =>
    cases q with
    | nil =>
      simp only [drainLoopHead, hq]
      exact alookup_aerase_self _ _ hnd
    | cons e rest =>
      simp only [drainLoopHead, hq, drainIterate] at h ⊢
      cases hsched : scheduleHookExecution
          { s with executionQueue := aset s.executionQueue key rest } key e.1 e.2 with
      | mk s2 opt =>
        cases opt with
        | some tk => simp [hsched] at h
        | none =>
          have hs2 : s2 = { s with executionQueue := aset s.executionQueue key rest } := by
            have := scheduleHookExecution_drop_eq
              { s with executionQueue := aset s.executionQueue key rest } key e.1 e.2
              (by rw [hsched])
            rw [hsched] at this
            exact this
          simp only [hsched] at h ⊢
          subst hs2
          exact afterScheduleInQueue_none _ key (keys_aset_nodup _ _ _ hnd) h

/-- C9: a drain step that ends the loop (returns no continuation) leaves
no queue structure for the file — the per-file entry is deleted, not kept
empty — both at the loop tail and at the loop-head re-check; and in the
concrete three-hook scenario for file `f` where the middle execution
throws, all three hooks still begin and end in order and the queue entry
for `f` is gone at the end. -/
theorem C9_drain_cleanup (s : ExecState) (key : String)
    (hnd : (s.executionQueue.map Prod.fst).Nodup) :
    ((afterScheduleInQueue s key).2 = none →
      alookup (afterScheduleInQueue s key).1.executionQueue key = none)
    ∧ ((drainLoopHead s key).2 = none →
      alookup (drainLoopHead s key).1.executionQueue key = none)
    ∧ beginsOf c9Final = ["hookD1", "hookD2", "hookD3"]
    ∧ endsOf c9Final = [0, 1, 2]
    ∧ alookup c9Final.executionQueue "f" = none := by
  exact ⟨afterScheduleInQueue_none s key hnd, drainLoopHead_none s key hnd,
    by decide, by decide, by decide⟩

/-- C9 witness: the cleanup theorem applied to a concrete state whose
queue for `f` has drained to empty. -/
theorem C9_witness :
    alookup (afterScheduleInQueue { initState with executionQueue := [("f", [])] }
      "f").1.executionQueue "f" = none := by
  have h := C9_drain_cleanup { initState with executionQueue := [("f", [])] } "f" (by decide)
  exact h.1 (by decide)

/-! ## Characterization of the `**/*.ts` matcher -/

theorem toLower_eq_slash (c : Char) (h : c.toLower = '/') : c = '/' := by
  have h2 : (if c.toNat ≥ 65 ∧ c.toNat ≤ 90 then Char.ofNat (c.toNat + 32) else c) = '/' := h
  by_cases hc : c.toNat ≥ 65 ∧ c.toNat ≤ 90
  · rw [if_pos hc] at h2
    obtain ⟨h65, h90⟩ := hc
    exfalso
    set n := c.toNat with hn
    interval_cases n <;> exact absurd h2 (by decide)
  · rwa [if_neg hc] at h2

theorem ccontains_iff (l : List Char) (c : Char) : l.contains c = true ↔ c ∈ l := by
  simp [List.contains, List.elem_iff]

theorem charMatch_any_iff (c : Char) :
    charMatch RAtom.any c = true ↔ isLineTerminator c = false := by
  simp [charMatch]

theorem charMatch_nonSlash_iff (c : Char) : charMatch RAtom.nonSlash c = true ↔ c ≠ '/' := by
  simp [charMatch]

theorem charMatch_lit_iff (l c : Char) :
    charMatch (RAtom.lit l) c = true ↔ l.toLower = c.toLower := by
  simp [charMatch]

theorem all_nonSlash_iff (u : List Char) :
    (∀ c ∈ u, charMatch RAtom.nonSlash c = true) ↔ u.contains '/' = false := by
  constructor
  · intro h
    rw [Bool.eq_false_iff]
    intro hc
    exact ((charMatch_nonSlash_iff '/').mp (h '/' ((ccontains_iff _ _).mp hc))) rfl
  · intro h c hc
    apply (charMatch_nonSlash_iff c).mpr
    intro hceq
    subst hceq
    rw [Bool.eq_false_iff] at h
    exact h ((ccontains_iff _ _).mpr hc)

theorem reMatch_nil_iff (cs : List Char) : reMatch [] cs = true ↔ cs = [] := by
  cases cs with
  | nil => simp [reMatch, reMatchL, reMatchNil]
  | cons c t => simp [reMatch, reMatchL, reMatchCons]

theorem reMatch_consF_cons (a : RAtom) (ps : List RPiece) (c : Char) (cs : List Char) :
    reMatch (⟨a, false⟩ :: ps) (c :: cs) = (charMatch a c && reMatch ps cs) := rfl

theorem reMatch_consT_cons (a : RAtom) (ps : List RPiece) (c : Char) (cs : List Char) :
    reMatch (⟨a, true⟩ :: ps) (c :: cs) =
      (reMatch ps (c :: cs) || (charMatch a c && reMatch (⟨a, true⟩ :: ps) cs)) := rfl

theorem reMatch_consT_nil (a : RAtom) (ps : List RPiece) :
    reMatch (⟨a, true⟩ :: ps) [] = reMatch ps [] := rfl

theorem reMatch_consF_nil (a : RAtom) (ps : List RPiece) :
    reMatch (⟨a, false⟩ :: ps) [] = false := rfl

theorem reMatch_consF_iff (a : RAtom) (ps : List RPiece) (cs : List Char) :
    reMatch (⟨a, false⟩ :: ps) cs = true ↔
      ∃ c cs', cs = c :: cs' ∧ charMatch a c = true ∧ reMatch ps cs' = true := by
  cases cs with
  | nil =>
    rw [reMatch_consF_nil]
    simp
  | cons c t =>
    rw [reMatch_consF_cons]
    constructor
    · intro h
      rcases Bool.and_eq_true_iff.mp h with ⟨h1, h2⟩
      exact ⟨c, t, rfl, h1, h2⟩
    · rintro ⟨c', t', heq, h1, h2⟩
      cases heq
      exact Bool.and_eq_true_iff.mpr ⟨h1, h2⟩

theorem reMatch_consT_iff (a : RAtom) (ps : List RPiece) (cs : List Char) :
    reMatch (⟨a, true⟩ :: ps) cs = true ↔
      ∃ u v, cs = u ++ v ∧ (∀ c ∈ u, charMatch a c = true) ∧ reMatch ps v = true := by
  induction cs with
  | nil =>
    rw [reMatch_consT_nil]
    constructor
    · intro h
      exact ⟨[], [], rfl, by simp, h⟩
    · rintro ⟨u, v, heq, _, h2⟩
      obtain ⟨rfl, rfl⟩ := List.append_eq_nil.mp heq.symm
      exact h2
  | cons c t ih =>
    rw [reMatch_consT_cons]
    constructor
    · intro h
      rcases Bool.or_eq_true_iff.mp h with h | h
      · exact ⟨[], c :: t, rfl, by simp, h⟩
      · rcases Bool.and_eq_true_iff.mp h with ⟨h1, h2⟩
        obtain ⟨u, v, heq, hall, hm⟩ := ih.mp h2
        exact ⟨c :: u, v, by rw [heq]; rfl, by
          intro x hx
          rcases List.mem_cons.mp hx with rfl | hx
          · exact h1
          · exact hall x hx, hm⟩
    · rintro ⟨u, v, heq, hall, hm⟩
      cases u with
      | nil =>
        simp only [List.nil_append] at heq
        cases heq
        exact Bool.or_eq_true_iff.mpr (Or.inl hm)
      | cons u0 urest =>
        simp only [List.cons_append, List.cons.injEq] at heq
        obtain ⟨rfl, heq2⟩ := heq
        refine Bool.or_eq_true_iff.mpr (Or.inr (Bool.and_eq_true_iff.mpr
          ⟨hall c (List.mem_cons_self _ _), ?_⟩))
        exact ih.mpr ⟨urest, v, heq2, fun x hx => hall x (List.mem_cons_of_mem _ hx), hm⟩

theorem endsWithDotTs_iff (v : List Char) :
    endsWithDotTs v = true ↔
      ∃ cS cT cD r, v.reverse = cS :: cT :: cD :: r
        ∧ cS.toLower = 's' ∧ cT.toLower = 't' ∧ cD.toLower = '.' := by
  unfold endsWithDotTs
  rcases hr : v.reverse with _ | ⟨cS, _ | ⟨cT, _ | ⟨cD, r⟩⟩⟩
  · simp
  · simp
  · simp
  · simp only [List.cons.injEq]
    constructor
    · intro h
      have h1 := Bool.and_eq_true_iff.mp h
      have h2 := Bool.and_eq_true_iff.mp h1.1
      exact ⟨cS, cT, cD, r, ⟨rfl, rfl, rfl, rfl⟩,
        by simpa using h2.1, by simpa using h2.2, by simpa using h1.2⟩
    · rintro ⟨cS', cT', cD', r', ⟨rfl, rfl, rfl, rfl⟩, h1, h2, h3⟩
      refine Bool.and_eq_true_iff.mpr ⟨Bool.and_eq_true_iff.mpr ⟨?_, ?_⟩, ?_⟩
      · simpa using h1
      · simpa using h2
      · simpa using h3

theorem endsWithDotTs_append (x v : List Char) (h : endsWithDotTs v = true) :
    endsWithDotTs (x ++ v) = true := by
  obtain ⟨cS, cT, cD, r, hr, h1, h2, h3⟩ := (endsWithDotTs_iff v).mp h
  apply (endsWithDotTs_iff (x ++ v)).mpr
  exact ⟨cS, cT, cD, r ++ x.reverse, by rw [List.reverse_append, hr]; rfl, h1, h2, h3⟩

theorem reMatch_litTriple_iff (w : List Char) :
    reMatch [⟨RAtom.lit '.', false⟩, ⟨RAtom.lit 't', false⟩, ⟨RAtom.lit 's', false⟩] w = true ↔
      ∃ c1 c2 c3, w = [c1, c2, c3]
        ∧ c1.toLower = '.' ∧ c2.toLower = 't' ∧ c3.toLower = 's' := by
  constructor
  · intro h
    obtain ⟨c1, w1, rfl, hm1, h1⟩ := (reMatch_consF_iff _ _ _).mp h
    obtain ⟨c2, w2, rfl, hm2, h2⟩ := (reMatch_consF_iff _ _ _).mp h1
    obtain ⟨c3, w3, rfl, hm3, h3⟩ := (reMatch_consF_iff _ _ _).mp h2
    have hw3 : w3 = [] := (reMatch_nil_iff w3).mp h3
    subst hw3
    refine ⟨c1, c2, c3, rfl, ?_, ?_, ?_⟩
    · have := (charMatch_lit_iff '.' c1).mp hm1
      rw [show ('.' : Char).toLower = '.' from by decide] at this
      exact this.symm
    · have := (charMatch_lit_iff 't' c2).mp hm2
      rw [show ('t' : Char).toLower = 't' from by decide] at this
      exact this.symm
    · have := (charMatch_lit_iff 's' c3).mp hm3
      rw [show ('s' : Char).toLower = 's' from by decide] at this
      exact this.symm
  · rintro ⟨c1, c2, c3, rfl, h1, h2, h3⟩
    apply (reMatch_consF_iff _ _ _).mpr
    refine ⟨c1, [c2, c3], rfl, (charMatch_lit_iff _ _).mpr (by rw [h1]; decide), ?_⟩
    apply (reMatch_consF_iff _ _ _).mpr
    refine ⟨c2, [c3], rfl, (charMatch_lit_iff _ _).mpr (by rw [h2]; decide), ?_⟩
    apply (reMatch_consF_iff _ _ _).mpr
    refine ⟨c3, [], rfl, (charMatch_lit_iff _ _).mpr (by rw [h3]; decide), ?_⟩
    exact (reMatch_nil_iff []).mpr rfl

theorem reMatch_tsTail_iff (v : List Char) :
    reMatch tsTailPieces v = true ↔
      v.contains '/' = false ∧ endsWithDotTs v = true := by
  show reMatch (⟨RAtom.nonSlash, true⟩ :: _) v = true ↔ _
  rw [reMatch_consT_iff]
  constructor
  · rintro ⟨u, w, rfl, hu, hw⟩
    obtain ⟨c1, c2, c3, rfl, h1, h2, h3⟩ := (reMatch_litTriple_iff w).mp hw
    constructor
    · rw [Bool.eq_false_iff]
      intro hc
      have hmem := (ccontains_iff _ _).mp hc
      rcases List.mem_append.mp hmem with hm | hm
      · exact ((charMatch_nonSlash_iff '/').mp (hu '/' hm)) rfl
      · rcases List.mem_cons.mp hm with h | hm
        · rw [← h] at h1
          exact absurd h1 (by decide)
        · rcases List.mem_cons.mp hm with h | hm
          · rw [← h] at h2
            exact absurd h2 (by decide)
          · rcases List.mem_cons.mp hm with h | hm
            · rw [← h] at h3
              exact absurd h3 (by decide)
            · cases hm
    · apply endsWithDotTs_append
      apply (endsWithDotTs_iff _).mpr
      exact ⟨c3, c2, c1, [], by simp, h3, h2, h1⟩
  · rintro ⟨hnc, he⟩
    obtain ⟨cS, cT, cD, r, hr, h1, h2, h3⟩ := (endsWithDotTs_iff v).mp he
    have hv : v = r.reverse ++ [cD, cT, cS] := by
      have := congrArg List.reverse hr
      rw [List.reverse_reverse] at this
      rw [this]
      simp
    refine ⟨r.reverse, [cD, cT, cS], hv, ?_, ?_⟩
    · intro c hc
      apply (charMatch_nonSlash_iff c).mpr
      intro hceq
      subst hceq
      have : '/' ∈ v := by
        rw [hv]
        exact List.mem_append.mpr (Or.inl hc)
      rw [Bool.eq_false_iff] at hnc
      exact hnc ((ccontains_iff _ _).mpr this)
    · exact (reMatch_litTriple_iff _).mpr ⟨cD, cT, cS, rfl, h3, h2, h1⟩

theorem tsPieces_eq :
    tsPieces = ⟨RAtom.any, true⟩ :: ⟨RAtom.any, false⟩ :: ⟨RAtom.nonSlash, true⟩ ::
      ⟨RAtom.lit '/', false⟩ :: tsTailPieces := by decide

theorem bool_eq_iff_iff (a b : Bool) : (a = b) ↔ ((a = true) ↔ (b = true)) := by
  cases a <;> cases b <;> simp

theorem regexTest_iff (ps : List RPiece) (cs : List Char) :
    regexTest ps cs = true ↔ ∃ u v, cs = u ++ v ∧ reMatch ps v = true := by
  induction cs with
  | nil =>
    constructor
    · intro h
      exact ⟨[], [], rfl, h⟩
    · rintro ⟨u, v, heq, h⟩
      obtain ⟨rfl, rfl⟩ := List.append_eq_nil.mp heq.symm
      exact h
  | cons c t ih =>
    constructor
    · intro h
      rcases Bool.or_eq_true_iff.mp h with h | h
      · exact ⟨[], c :: t, rfl, h⟩
      · obtain ⟨u, v, heq, hm⟩ := ih.mp h
        exact ⟨c :: u, v, by rw [heq]; rfl, hm⟩
    · rintro ⟨u, v, heq, hm⟩
      apply Bool.or_eq_true_iff.mpr
      cases u with
      | nil =>
        simp only [List.nil_append] at heq
        cases heq
        exact Or.inl hm
      | cons u0 ur =>
        simp only [List.cons_append, List.cons.injEq] at heq
        obtain ⟨rfl, heq2⟩ := heq
        exact Or.inr (ih.mpr ⟨ur, v, heq2, hm⟩)

theorem regexTest_anyT_iff (ps : List RPiece) (cs : List Char) :
    regexTest (⟨RAtom.any, true⟩ :: ps) cs = regexTest ps cs := by
  apply (bool_eq_iff_iff _ _).mpr
  rw [regexTest_iff, regexTest_iff]
  constructor
  · rintro ⟨u, v, heq, hm⟩
    obtain ⟨u2, w, heq2, _, hw⟩ := (reMatch_consT_iff _ _ _).mp hm
    exact ⟨u ++ u2, w, by rw [heq, heq2]; simp, hw⟩
  · rintro ⟨u, v, heq, hm⟩
    exact ⟨u, v, heq, (reMatch_consT_iff _ _ _).mpr ⟨[], v, rfl, by simp, hm⟩⟩

theorem exists_last_slash_split (cs : List Char) (h : '/' ∈ cs) :
    ∃ pre post, cs = pre ++ '/' :: post ∧ '/' ∉ post := by
  induction cs with
  | nil => cases h
  | cons c t ih =>
    by_cases ht : '/' ∈ t
    · obtain ⟨pre, post, heq, hpost⟩ := ih ht
      exact ⟨c :: pre, post, by rw [heq]; rfl, hpost⟩
    · have hc : c = '/' := by
        rcases List.mem_cons.mp h with h | h
        · exact h.symm
        · exact absurd h ht
      exact ⟨[], t, by rw [hc, List.nil_append], ht⟩

theorem endsWithDotTs_of_last_slash (cs pre post : List Char)
    (heq : cs = pre ++ '/' :: post) (he : endsWithDotTs cs = true) :
    endsWithDotTs post = true := by
  obtain ⟨cS, cT, cD, r, hr, h1, h2, h3⟩ := (endsWithDotTs_iff cs).mp he
  have hrev : post.reverse ++ '/' :: pre.reverse = cS :: cT :: cD :: r := by
    rw [← hr, heq]
    simp
  rcases hq : post.reverse with _ | ⟨a, _ | ⟨b, _ | ⟨d, r2⟩⟩⟩ <;> rw [hq] at hrev
  · simp only [List.nil_append, List.cons.injEq] at hrev
    rw [← hrev.1] at h1
    exact absurd h1 (by decide)
  · simp only [List.cons_append, List.nil_append, List.cons.injEq] at hrev
    rw [← hrev.2.1] at h2
    exact absurd h2 (by decide)
  · simp only [List.cons_append, List.nil_append, List.cons.injEq] at hrev
    rw [← hrev.2.2.1] at h3
    exact absurd h3 (by decide)
  · simp only [List.cons_append, List.cons.injEq] at hrev
    apply (endsWithDotTs_iff post).mpr
    exact ⟨a, b, d, r2, hq, hrev.1 ▸ h1, hrev.2.1 ▸ h2, hrev.2.2.1 ▸ h3⟩

theorem split_before_last_slash (u : List Char) (c : Char) (v : List Char) :
    ∀ pre post : List Char, u ++ c :: v = pre ++ '/' :: post → '/' ∈ v →
      '/' ∉ pre → '/' ∉ post → ∃ m, pre = u ++ c :: m := by
  induction u with
  | nil =>
    intro pre post heq hv _ hpost
    cases pre with
    | nil =>
      simp only [List.nil_append, List.cons.injEq] at heq
      exact absurd (heq.2 ▸ hv) hpost
    | cons p0 pre2 =>
      simp only [List.nil_append, List.cons_append, List.cons.injEq] at heq
      exact ⟨pre2, by rw [heq.1]; rfl⟩
  | cons d u2 ih =>
    intro pre post heq hv hpre hpost
    cases pre with
    | nil =>
      simp only [List.cons_append, List.nil_append, List.cons.injEq] at heq
      exact absurd (heq.2 ▸ List.mem_append.mpr
        (Or.inr (List.mem_cons_of_mem _ hv))) hpost
    | cons p0 pre2 =>
      simp only [List.cons_append, List.cons.injEq] at heq
      obtain ⟨rfl, heq2⟩ := heq
      obtain ⟨m, hm⟩ := ih pre2 post heq2 hv
        (fun hx => hpre (List.mem_cons_of_mem _ hx)) hpost
      exact ⟨m, by rw [hm]; rfl⟩

theorem hasAnyBeforeSlash_intro (u : List Char) (c : Char) (v : List Char)
    (hc : isLineTerminator c = false) (hv : '/' ∈ v) :
    hasAnyBeforeSlash (u ++ c :: v) = true := by
  induction u with
  | nil =>
    show ((!(isLineTerminator c) && v.contains '/') || hasAnyBeforeSlash v) = true
    apply Bool.or_eq_true_iff.mpr
    left
    apply Bool.and_eq_true_iff.mpr
    exact ⟨by rw [hc]; rfl, (ccontains_iff _ _).mpr hv⟩
  | cons d t ih =>
    show (_ || hasAnyBeforeSlash (t ++ c :: v)) = true
    rw [ih]
    simp

theorem hasAnyBeforeSlash_elim (cs : List Char) (h : hasAnyBeforeSlash cs = true) :
    ∃ u c v, cs = u ++ c :: v ∧ isLineTerminator c = false ∧ '/' ∈ v := by
  induction cs with
  | nil => exact absurd h (by decide)
  | cons d t ih =>
    have h2 : ((!(isLineTerminator d) && t.contains '/') || hasAnyBeforeSlash t) = true := h
    rcases Bool.or_eq_true_iff.mp h2 with h3 | h3
    · rcases Bool.and_eq_true_iff.mp h3 with ⟨h4, h5⟩
      exact ⟨[], d, t, rfl, by simpa using h4, (ccontains_iff _ _).mp h5⟩
    · obtain ⟨u, c, v, heq, hc, hv⟩ := ih h3
      exact ⟨d :: u, c, v, by rw [heq]; rfl, hc, hv⟩

theorem reMatch_tsTail2_iff (v : List Char) :
    reMatch (⟨RAtom.any, false⟩ :: ⟨RAtom.nonSlash, true⟩ :: ⟨RAtom.lit '/', false⟩ ::
        tsTailPieces) v = true ↔
      ∃ c m w, v = c :: (m ++ '/' :: w) ∧ isLineTerminator c = false
        ∧ m.contains '/' = false ∧ w.contains '/' = false ∧ endsWithDotTs w = true := by
  constructor
  · intro h
    obtain ⟨c, v1, rfl, hmc, h1⟩ := (reMatch_consF_iff _ _ _).mp h
    obtain ⟨m, v2, rfl, hum, h2⟩ := (reMatch_consT_iff _ _ _).mp h1
    obtain ⟨c4, w, rfl, hm4, h3⟩ := (reMatch_consF_iff _ _ _).mp h2
    have hc4 : c4 = '/' := by
      have hl := (charMatch_lit_iff '/' c4).mp hm4
      rw [show ('/' : Char).toLower = '/' from by decide] at hl
      exact toLower_eq_slash c4 hl.symm
    subst hc4
    obtain ⟨hw, he⟩ := (reMatch_tsTail_iff w).mp h3
    exact ⟨c, m, w, rfl, (charMatch_any_iff c).mp hmc, (all_nonSlash_iff m).mp hum, hw, he⟩
  · rintro ⟨c, m, w, rfl, hterm, hm, hw, he⟩
    apply (reMatch_consF_iff _ _ _).mpr
    refine ⟨c, m ++ '/' :: w, rfl, (charMatch_any_iff c).mpr hterm, ?_⟩
    apply (reMatch_consT_iff _ _ _).mpr
    refine ⟨m, '/' :: w, rfl, (all_nonSlash_iff m).mpr hm, ?_⟩
    apply (reMatch_consF_iff _ _ _).mpr
    refine ⟨'/', w, rfl, by decide, ?_⟩
    exact (reMatch_tsTail_iff w).mpr ⟨hw, he⟩

/-- Full characterization of `RegExp.prototype.test` on the `**/*.ts`
pattern: the emitted regex `.*.[^/]*/[^/]*\.ts$` accepts exactly the
paths that end in `.ts` (case-insensitively) and contain, strictly before
some separator, a character that is not a line terminator — the match
must place the unstarred `.` atom (a dot without the `s` flag) on such a
character. -/
theorem regexTest_ts_iff (cs : List Char) :
    regexTest tsPieces cs = true ↔
      (endsWithDotTs cs = true ∧ hasAnyBeforeSlash cs = true) := by
  rw [tsPieces_eq, regexTest_anyT_iff, regexTest_iff]
  constructor
  · rintro ⟨pre, v, rfl, hm⟩
    obtain ⟨c, m, w, rfl, hterm, hmm, hw, he⟩ := (reMatch_tsTail2_iff v).mp hm
    constructor
    · have hsplit : pre ++ c :: (m ++ '/' :: w) = (pre ++ c :: m ++ ['/']) ++ w := by
        simp
      rw [hsplit]
      exact endsWithDotTs_append _ _ he
    · exact hasAnyBeforeSlash_intro pre c (m ++ '/' :: w) hterm
        (List.mem_append.mpr (Or.inr (List.mem_cons_self _ _)))
  · rintro ⟨he, habs⟩
    obtain ⟨u, c, v, hcs, hterm, hv⟩ := hasAnyBeforeSlash_elim cs habs
    have hslash : '/' ∈ cs := by
      rw [hcs]
      exact List.mem_append.mpr (Or.inr (List.mem_cons_of_mem _ hv))
    obtain ⟨pre, post, heq, hpost⟩ := exists_last_slash_split cs hslash
    have hepost : endsWithDotTs post = true := endsWithDotTs_of_last_slash cs pre post heq he
    have hpostc : post.contains '/' = false := by
      rw [Bool.eq_false_iff]
      intro hcc
      exact hpost ((ccontains_iff _ _).mp hcc)
    by_cases hpre : '/' ∈ pre
    · obtain ⟨p2, m2, hpre2, hm2⟩ := exists_last_slash_split pre hpre
      refine ⟨p2, '/' :: (m2 ++ '/' :: post), ?_, ?_⟩
      · rw [heq, hpre2]
        simp
      · apply (reMatch_tsTail2_iff _).mpr
        refine ⟨'/', m2, post, rfl, by decide, ?_, hpostc, hepost⟩
        rw [Bool.eq_false_iff]
        intro hcc
        exact hm2 ((ccontains_iff _ _).mp hcc)
    · obtain ⟨m, hprem⟩ := split_before_last_slash u c v pre post (by rw [← hcs, heq])
        hv hpre hpost
      refine ⟨u, c :: (m ++ '/' :: post), ?_, ?_⟩
      · rw [heq, hprem]
        simp
      · apply (reMatch_tsTail2_iff _).mpr
        refine ⟨c, m, post, rfl, hterm, ?_, hpostc, hepost⟩
        rw [Bool.eq_false_iff]
        intro hcc
        apply hpre
        rw [hprem]
        exact List.mem_append.mpr (Or.inr (List.mem_cons_of_mem _
          ((ccontains_iff _ _).mp hcc)))

theorem matchesGlob_ts_eq (p : List Char) :
    matchesGlobPattern p "**/*.ts".data =
      (endsWithDotTs (normalizeSlashes p) && hasAnyBeforeSlash (normalizeSlashes p)) := by
  have h1 : matchesGlobPattern p "**/*.ts".data
      = regexTest tsPieces (normalizeSlashes p) := by
    show (if normalizeSlashes "**/*.ts".data = "**/*".data then true
        else regexTest (parseRegex (globToRegex (normalizeSlashes "**/*.ts".data)))
          (normalizeSlashes p)) = _
    rw [if_neg (by decide)]
    rfl
  rw [h1]
  apply (bool_eq_iff_iff _ _).mpr
  rw [Bool.and_eq_true_iff]
  exact regexTest_ts_iff (normalizeSlashes p)

/-- C2, counterexample: `a.ts` ends with `.ts` (after normalization and
lowering) but does not match the `**/*.ts` pattern — the conversion
rewrites the `*` of the `.*` produced for `**` into `[^/]*`, so the
resulting regex `.*.[^/]*/[^/]*\.ts$` demands a path separator before the
file name. -/
theorem C2_counterexample :
    matchesFilePattern "a.ts" tsHook = false
    ∧ endsWithDotTs (normalizeSlashes "a.ts".data) = true := by decide

/-- C2 (amended): `matches(p, "**/*.ts")` is true exactly when the
forward-slash-normalized `p` ends with `.ts` case-insensitively AND some
character of `p` that is not a line terminator occurs strictly before
some path separator.  The glob conversion turns `**` into `.[^/]*`,
forcing a directory component, and the resulting unstarred `.` — a
`RegExp` dot without the `s` flag — must consume one non-line-terminator
character before the last separator.  The sentinel part of the claim is
unchanged: pattern `**/*` or the empty/absent pattern matches every path,
including the empty string. -/
theorem C2_pattern_amended (p : String) (hook : Hook) :
    (matchesGlobPattern p.data "**/*.ts".data =
      (endsWithDotTs (normalizeSlashes p.data) && hasAnyBeforeSlash (normalizeSlashes p.data)))
    ∧ (hook.filePattern = "**/*.ts" →
        matchesFilePattern p hook = matchesGlobPattern p.data "**/*.ts".data)
    ∧ ((hook.filePattern = "**/*" ∨ hook.filePattern = "") →
        matchesFilePattern p hook = true) := by
  refine ⟨matchesGlob_ts_eq p.data, ?_, ?_⟩
  · intro hfp
    show (if (hook.filePattern = "" || hook.filePattern = "**/*" : Bool) then true
        else ((splitOnComma hook.filePattern.data).map trimL).any
          (fun pattern => matchesGlobPattern p.data pattern)) = _
    rw [hfp]
    rw [if_neg (by decide)]
    rw [show (splitOnComma "**/*.ts".data).map trimL = ["**/*.ts".data] from by decide]
    simp [List.any]
  · intro hfp
    show (if (hook.filePattern = "" || hook.filePattern = "**/*" : Bool) then true
        else ((splitOnComma hook.filePattern.data).map trimL).any
          (fun pattern => matchesGlobPattern p.data pattern)) = true
    rcases hfp with hfp | hfp <;> rw [hfp] <;> rw [if_pos (by decide)]

/-- C2 witness: the sentinel clause applied to the empty path. -/
theorem C2_witness : matchesFilePattern "" hookMulA = true := by
  have h := C2_pattern_amended "" hookMulA
  exact h.2.2 (Or.inl rfl)

/-! ## Invariant machinery for the single-mode exclusivity claim -/

theorem alookup_mem {α : Type} (m : List (String × α)) (k : String) (v : α)
    (h : alookup m k = some v) : (k, v) ∈ m := by
  induction m with
  | nil => simp [alookup] at h
  | cons kv r ih =>
    obtain ⟨k0, v0⟩ := kv
    by_cases h0 : k0 = k
    · subst h0
      simp only [alookup, if_true, Option.some.injEq] at h
      subst h
      exact List.mem_cons_self _ _
    · simp only [alookup] at h
      rw [if_neg h0] at h
      exact List.mem_cons_of_mem _ (ih h)

theorem mem_aset {α : Type} (m : List (String × α)) (k : String) (v : α)
    (pq : String × α) (h : pq ∈ aset m k v) : pq ∈ m ∨ pq = (k, v) := by
  induction m with
  | nil => simpa [aset] using h
  | cons kv r ih =>
    obtain ⟨k0, v0⟩ := kv
    by_cases h0 : k0 = k
    · subst h0
      simp only [aset, if_true] at h
      rcases List.mem_cons.mp h with rfl | hmem
      · exact Or.inr rfl
      · exact Or.inl (List.mem_cons_of_mem _ hmem)
    · simp only [aset] at h
      rw [if_neg h0] at h
      rcases List.mem_cons.mp h with rfl | hmem
      · exact Or.inl (List.mem_cons_self _ _)
      · rcases ih hmem with hmem | hmem
        · exact Or.inl (List.mem_cons_of_mem _ hmem)
        · exact Or.inr hmem

theorem mem_insertByPriority (e x : Hook × TriggerCtx) (l : List (Hook × TriggerCtx))
    (h : x ∈ insertByPriority e l) : x = e ∨ x ∈ l := by
  induction l with
  | nil => simpa [insertByPriority] using h
  | cons y ys ih =>
    simp only [insertByPriority] at h
    by_cases hc : e.1.priority ≥ y.1.priority
    · rw [if_pos hc] at h
      rcases List.mem_cons.mp h with rfl | h
      · exact Or.inl rfl
      · exact Or.inr h
    · rw [if_neg hc] at h
      rcases List.mem_cons.mp h with rfl | h
      · exact Or.inr (List.mem_cons_self _ _)
      · rcases ih h with h | h
        · exact Or.inl h
        · exact Or.inr (List.mem_cons_of_mem _ h)

theorem mem_sortByPriorityDesc (x : Hook × TriggerCtx) (l : List (Hook × TriggerCtx))
    (h : x ∈ sortByPriorityDesc l) : x ∈ l := by
  induction l with
  | nil => simpa [sortByPriorityDesc] using h
  | cons y ys ih =>
    simp only [sortByPriorityDesc] at h
    rcases mem_insertByPriority y x _ h with rfl | h
    · exact List.mem_cons_self _ _
    · exact List.mem_cons_of_mem _ (ih h)

theorem mem_of_get? {α : Type} (l : List α) (i : Nat) (x : α) (h : l.get? i = some x) :
    x ∈ l := by
  induction l generalizing i with
  | nil => simp [List.get?] at h
  | cons y ys ih =>
    cases i with
    | zero =>
      simp only [List.get?, Option.some.injEq] at h
      subst h
      exact List.mem_cons_self _ _
    | succ j =>
      simp only [List.get?] at h
      exact List.mem_cons_of_mem _ (ih j h)

theorem mem_eraseIdx_of_ne {α : Type} (l : List α) (i : Nat) (x y : α)
    (hget : l.get? i = some y) (hx : x ∈ l) (hne : x ≠ y) : x ∈ l.eraseIdx i := by
  induction l generalizing i with
  | nil => simp at hx
  | cons z zs ih =>
    cases i with
    | zero =>
      simp only [List.get?, Option.some.injEq] at hget
      subst hget
      simp only [List.eraseIdx]
      rcases List.mem_cons.mp hx with rfl | hx
      · exact absurd rfl hne
      · exact hx
    | succ j =>
      simp only [List.get?] at hget
      simp only [List.eraseIdx]
      rcases List.mem_cons.mp hx with rfl | hx
      · exact List.mem_cons_self _ _
      · exact List.mem_cons_of_mem _ (ih j hget hx)

theorem length_filter_eraseIdx {α : Type} (p : α → Bool) (l : List α) (i : Nat) (x : α)
    (hget : l.get? i = some x) :
    ((l.eraseIdx i).filter p).length + (if p x then 1 else 0) = (l.filter p).length := by
  induction l generalizing i with
  | nil => simp [List.get?] at hget
  | cons z zs ih =>
    cases i with
    | zero =>
      have hx : z = x := by simpa [List.get?] using hget
      subst hx
      simp only [List.eraseIdx, List.filter_cons]
      cases hp : p z <;> simp [hp]
    | succ j =>
      simp only [List.get?] at hget
      simp only [List.eraseIdx, List.filter_cons]
      cases hp : p z
      · simpa [hp] using ih j hget
      · have := ih j hget
        simp [hp]
        omega

theorem two_mem_length_filter {α : Type} [DecidableEq α] (p : α → Bool) (l : List α)
    (x y : α) (hx : x ∈ l.filter p) (hy : y ∈ l.filter p) (hne : x ≠ y) :
    2 ≤ (l.filter p).length := by
  have hy2 : y ∈ (l.filter p).erase x := (List.mem_erase_of_ne (Ne.symm hne)).mpr hy
  have h1 : 1 ≤ ((l.filter p).erase x).length := List.length_pos.mpr (by
    intro hnil
    rw [hnil] at hy2
    cases hy2)
  have h2 : ((l.filter p).erase x).length = (l.filter p).length - 1 :=
    List.length_erase_of_mem hx
  omega

theorem append_colon_inj (u v x y : List Char) (hu : ':' ∉ u) (hv : ':' ∉ v)
    (h : u ++ ':' :: x = v ++ ':' :: y) : u = v ∧ x = y := by
  induction u generalizing v with
  | nil =>
    cases v with
    | nil => simpa using h
    | cons d v' =>
      simp only [List.nil_append, List.cons_append, List.cons.injEq] at h
      exact absurd (h.1 ▸ List.mem_cons_self d v') (h.1 ▸ hv)
  | cons c u' ih =>
    cases v with
    | nil =>
      simp only [List.cons_append, List.nil_append, List.cons.injEq] at h
      exact absurd (h.1 ▸ List.mem_cons_self c u') (h.1 ▸ hu)
    | cons d v' =>
      simp only [List.cons_append, List.cons.injEq] at h
      obtain ⟨rfl, h2⟩ := h
      have := ih v' (fun hm => hu (List.mem_cons_of_mem _ hm))
        (fun hm => hv (List.mem_cons_of_mem _ hm)) h2
      exact ⟨by rw [this.1], this.2⟩

theorem hookFileKey_inj_id (a b x y : String)
    (ha : a.data.contains ':' = false) (hb : b.data.contains ':' = false)
    (h : hookFileKey a x = hookFileKey b y) : a = b := by
  have hd : a.data ++ ':' :: x.data = b.data ++ ':' :: y.data := by
    have h1 : ((a ++ ":") ++ x).data = ((b ++ ":") ++ y).data := congrArg String.data h
    rw [String.data_append, String.data_append, String.data_append, String.data_append] at h1
    simpa using h1
  have hna : ':' ∉ a.data := by
    intro hm
    rw [Bool.eq_false_iff] at ha
    exact ha ((ccontains_iff _ _).mpr hm)
  have hnb : ':' ∉ b.data := by
    intro hm
    rw [Bool.eq_false_iff] at hb
    exact hb ((ccontains_iff _ _).mpr hm)
  have hdata := (append_colon_inj _ _ _ _ hna hnb hd).1
  cases a with
  | mk da =>
    cases b with
    | mk db => exact congrArg String.mk (by simpa using hdata)

/-- Transfer of the invariant between states that agree on the queue, the
tasks, the running registry and the processing set. -/
theorem SingleInv.transfer (h : Hook) (s s' : ExecState)
    (hq : s'.executionQueue = s.executionQueue) (ht : s'.tasks = s.tasks)
    (hr : s'.runningHooks = s.runningHooks) (hp : s'.processingFiles = s.processingFiles)
    (hinv : SingleInv h s) : SingleInv h s' := by
  refine ⟨?_, ?_, ?_, ?_, ?_, ?_⟩
  · rw [hq]
    exact hinv.qhooks
  · rw [ht]
    exact hinv.thooks
  · show (s'.tasks.filter (isLiveExecOf h.id)).length ≤ 1
    rw [ht]
    exact hinv.atMostOne
  · show 1 ≤ (s'.tasks.filter (isLiveExecOf h.id)).length → _
    rw [ht, hr]
    exact hinv.liveRunning
  · rw [hp, ht]
    exact hinv.procLive
  · rw [hp]
    exact hinv.procNodup

/-- Appending a task that is not a live execution of `h` preserves the
invariant. -/
theorem SingleInv.appendTask (h : Hook) (s : ExecState) (t : TaskK)
    (hinv : SingleInv h s) (hok : taskHookOK h t) (hnl : isLiveExecOf h.id t = false) :
    SingleInv h { s with tasks := s.tasks ++ [t] } := by
  refine ⟨hinv.qhooks, ?_, ?_, ?_, ?_, hinv.procNodup⟩
  · intro t' ht'
    rcases List.mem_append.mp ht' with ht' | ht'
    · exact hinv.thooks t' ht'
    · rcases List.mem_cons.mp ht' with rfl | ht'
      · exact hok
      · cases ht'
  · show ((s.tasks ++ [t]).filter (isLiveExecOf h.id)).length ≤ 1
    rw [List.filter_append]
    simp only [List.filter_cons, hnl, Bool.false_eq_true, if_false, List.filter_nil,
      List.append_nil]
    exact hinv.atMostOne
  · show 1 ≤ ((s.tasks ++ [t]).filter (isLiveExecOf h.id)).length → _
    rw [List.filter_append]
    simp only [List.filter_cons, hnl, Bool.false_eq_true, if_false, List.filter_nil,
      List.append_nil]
    exact hinv.liveRunning
  · intro k hk hshape
    obtain ⟨t', ht', hl, hpk⟩ := hinv.procLive k hk hshape
    exact ⟨t', List.mem_append.mpr (Or.inl ht'), hl, hpk⟩

/-- Starting an execution (the non-dropped branch of
`executeHookWithChecks`) preserves the invariant provided a colliding
hook id is not currently running. -/
theorem executeHookWithChecks_inv (h : Hook) (s : ExecState) (key : String) (hook : Hook)
    (ctx : TriggerCtx) (hinv : SingleInv h s) (hok : hookOK h hook)
    (hcf : h.id.data.contains ':' = false)
    (hrun : hook.id = h.id → (alookup s.runningHooks h.id).isSome = false) :
    SingleInv h (withTask (executeHookWithChecks s key hook ctx)) := by
  by_cases hp : smem s.processingFiles (hookFileKey hook.id ctx.file) = true
  · simp only [executeHookWithChecks, hp, if_true, withTask]
    exact hinv
  · rw [Bool.not_eq_true] at hp
    simp only [executeHookWithChecks, hp, Bool.false_eq_true, if_false, executeHookStart,
      withTask]
    have hnotmem : hookFileKey hook.id ctx.file ∉ s.processingFiles := by
      intro hm
      rw [(smem_iff _ _).mpr hm] at hp
      cases hp
    have hnodup2 : (s.processingFiles ++ [hookFileKey hook.id ctx.file]).Nodup := by
      have hperm : (s.processingFiles ++ [hookFileKey hook.id ctx.file]).Perm
          (hookFileKey hook.id ctx.file :: s.processingFiles) :=
        List.perm_append_singleton _ _
      rw [hperm.nodup_iff, List.nodup_cons]
      exact ⟨hnotmem, hinv.procNodup⟩
    by_cases hid : hook.id = h.id
    · have hcount0 : (s.tasks.filter (isLiveExecOf h.id)).length = 0 := by
        by_contra hc
        have h1 : 1 ≤ (s.tasks.filter (isLiveExecOf h.id)).length := by omega
        have := hinv.liveRunning h1
        rw [hrun hid] at this
        cases this
      refine ⟨hinv.qhooks, ?_, ?_, ?_, ?_, hnodup2⟩
      · intro t' ht'
        rcases List.mem_append.mp ht' with ht' | ht'
        · exact hinv.thooks t' ht'
        · rcases List.mem_cons.mp ht' with rfl | ht'
          · exact hok
          · cases ht'
      · show ((s.tasks ++ [TaskK.aiCall key s.nextEid hook ctx]).filter
          (isLiveExecOf h.id)).length ≤ 1
        rw [List.filter_append, List.length_append, hcount0]
        simp [isLiveExecOf, hid]
      · show 1 ≤ ((s.tasks ++ [TaskK.aiCall key s.nextEid hook ctx]).filter
            (isLiveExecOf h.id)).length →
          (alookup (aset s.runningHooks hook.id s.nextEid) h.id).isSome = true
        intro _
        rw [hid, alookup_aset_self]
        rfl
      · intro k hk hshape
        rcases List.mem_append.mp hk with hk | hk
        · obtain ⟨t', ht', hl, hpk⟩ := hinv.procLive k hk hshape
          exact ⟨t', List.mem_append.mpr (Or.inl ht'), hl, hpk⟩
        · rcases List.mem_cons.mp hk with rfl | hk
          · refine ⟨TaskK.aiCall key s.nextEid hook ctx,
              List.mem_append.mpr (Or.inr (List.mem_cons_self _ _)), ?_, ?_⟩
            · simp [isLiveExecOf, hid]
            · rfl
          · cases hk
    · refine ⟨hinv.qhooks, ?_, ?_, ?_, ?_, hnodup2⟩
      · intro t' ht'
        rcases List.mem_append.mp ht' with ht' | ht'
        · exact hinv.thooks t' ht'
        · rcases List.mem_cons.mp ht' with rfl | ht'
          · exact hok
          · cases ht'
      · show ((s.tasks ++ [TaskK.aiCall key s.nextEid hook ctx]).filter
          (isLiveExecOf h.id)).length ≤ 1
        rw [List.filter_append]
        simp only [List.filter_cons, List.filter_nil]
        rw [show isLiveExecOf h.id (TaskK.aiCall key s.nextEid hook ctx) = false from by
          simp [isLiveExecOf, hid]]
        simp only [Bool.false_eq_true, if_false, List.append_nil]
        exact hinv.atMostOne
      · show 1 ≤ ((s.tasks ++ [TaskK.aiCall key s.nextEid hook ctx]).filter
            (isLiveExecOf h.id)).length →
          (alookup (aset s.runningHooks hook.id s.nextEid) h.id).isSome = true
        intro hc
        rw [List.filter_append] at hc
        simp only [List.filter_cons, List.filter_nil] at hc
        rw [show isLiveExecOf h.id (TaskK.aiCall key s.nextEid hook ctx) = false from by
          simp [isLiveExecOf, hid]] at hc
        simp only [Bool.false_eq_true, if_false, List.append_nil] at hc
        have := hinv.liveRunning hc
        rwa [alookup_aset_ne _ _ _ _ (fun he => hid he.symm)]
      · intro k hk hshape
        rcases List.mem_append.mp hk with hk | hk
        · obtain ⟨t', ht', hl, hpk⟩ := hinv.procLive k hk hshape
          exact ⟨t', List.mem_append.mpr (Or.inl ht'), hl, hpk⟩
        · rcases List.mem_cons.mp hk with rfl | hk
          · obtain ⟨f, hf⟩ := hshape
            exact absurd (hookFileKey_inj_id _ _ _ _ hok.2 hcf hf) hid
          · cases hk

/-- The execution-mode policy preserves the invariant. -/
theorem scheduleHookExecution_inv (h : Hook) (s : ExecState) (key : String) (hook : Hook)
    (ctx : TriggerCtx) (hinv : SingleInv h s) (hok : hookOK h hook)
    (hcf : h.id.data.contains ':' = false) :
    SingleInv h (withTask (scheduleHookExecution s key hook ctx)) := by
  cases hm : hook.executionMode with
  | multiple =>
    simp only [scheduleHookExecution, hm]
    refine executeHookWithChecks_inv h s key hook ctx hinv hok hcf ?_
    intro hid
    rw [hok.1 hid] at hm
    cases hm
  | single =>
    simp only [scheduleHookExecution, hm]
    by_cases h1 : (alookup s.runningHooks hook.id).isSome = true
    · simp only [h1, if_true, withTask]
      exact hinv
    · rw [Bool.not_eq_true] at h1
      simp only [h1, Bool.false_eq_true, if_false]
      by_cases h2 : canExecuteAfterCooldown s (hookFileKey hook.id ctx.file) = false
      · simp only [h2, if_true, withTask]
        exact hinv
      · rw [Bool.not_eq_false] at h2
        simp only [h2, Bool.true_eq_false, if_false]
        refine executeHookWithChecks_inv h s key hook ctx hinv hok hcf ?_
        intro hid
        rw [← hid]
        exact h1
  | restart =>
    simp only [scheduleHookExecution, hm]
    have hidne : hook.id ≠ h.id := by
      intro hid
      rw [hok.1 hid] at hm
      cases hm
    by_cases h1 : (alookup s.runningHooks hook.id).isSome = true
    · simp only [h1, if_true]
      have hstop : SingleInv h (stopRunningHook s hook.id) := by
        apply SingleInv.transfer h s _ _ _ _ _ hinv <;>
          (unfold stopRunningHook; cases alookup s.runningHooks hook.id <;> rfl)
      exact SingleInv.appendTask h _ _ hstop ⟨hok, hidne⟩ rfl
    · rw [Bool.not_eq_true] at h1
      simp only [h1, Bool.false_eq_true, if_false]
      refine executeHookWithChecks_inv h s key hook ctx hinv hok hcf ?_
      intro hid
      exact absurd hid hidne

/-- The loop tail of the drain preserves the invariant. -/
theorem afterScheduleInQueue_inv (h : Hook) (s : ExecState) (key : String)
    (hinv : SingleInv h s) : SingleInv h (withTask (afterScheduleInQueue s key)) := by
  cases hq : alookup s.executionQueue key with
  | none =>
    simp only [afterScheduleInQueue, hq, withTask]
    exact hinv
  | some q =>
    cases q with
    | nil =>
      simp only [afterScheduleInQueue, hq, withTask]
      refine ⟨?_, hinv.thooks, hinv.atMostOne, hinv.liveRunning, hinv.procLive,
        hinv.procNodup⟩
      intro pq hpq
      exact hinv.qhooks pq ((aerase_sublist _ _).mem hpq)
    | cons e rest =>
      simp only [afterScheduleInQueue, hq]
      exact SingleInv.appendTask h s _ hinv trivial rfl

/-- Replacing one file's queue by its own tail preserves the invariant. -/
theorem queueShift_inv (h : Hook) (s : ExecState) (key : String)
    (rest : List (Hook × TriggerCtx))
    (hrest : ∀ e ∈ rest, hookOK h e.1) (hinv : SingleInv h s) :
    SingleInv h { s with executionQueue := aset s.executionQueue key rest } := by
  refine ⟨?_, hinv.thooks, hinv.atMostOne, hinv.liveRunning, hinv.procLive, hinv.procNodup⟩
  intro pq hpq
  rcases mem_aset _ _ _ _ hpq with hpq | rfl
  · exact hinv.qhooks pq hpq
  · exact hrest

/-- One drain iteration preserves the invariant. -/
theorem drainIterate_inv (h : Hook) (s : ExecState) (key : String) (e : Hook × TriggerCtx)
    (rest : List (Hook × TriggerCtx)) (hinv : SingleInv h s)
    (hcf : h.id.data.contains ':' = false)
    (he : hookOK h e.1) (hrest : ∀ x ∈ rest, hookOK h x.1) :
    SingleInv h (withTask (drainIterate s key e rest)) := by
  have hinv1 : SingleInv h { s with executionQueue := aset s.executionQueue key rest } :=
    queueShift_inv h s key rest hrest hinv
  cases hsched : scheduleHookExecution
      { s with executionQueue := aset s.executionQueue key rest } key e.1 e.2 with
  | mk s2 opt =>
    cases opt with
    | some tk =>
      have hres : withTask (drainIterate s key e rest) = withTask (s2, some tk) := by
        simp only [drainIterate, hsched]
      rw [hres, ← hsched]
      exact scheduleHookExecution_inv h _ key e.1 e.2 hinv1 he hcf
    | none =>
      have hs2 : s2 = { s with executionQueue := aset s.executionQueue key rest } := by
        have := scheduleHookExecution_drop_eq
          { s with executionQueue := aset s.executionQueue key rest } key e.1 e.2
          (by rw [hsched])
        rw [hsched] at this
        exact this
      have hres : withTask (drainIterate s key e rest)
          = withTask (afterScheduleInQueue s2 key) := by
        simp only [drainIterate, hsched]
      rw [hres, hs2]
      exact afterScheduleInQueue_inv h _ key hinv1

/-- The drain entry point preserves the invariant. -/
theorem processExecutionQueue_inv (h : Hook) (s : ExecState) (key : String)
    (hinv : SingleInv h s) (hcf : h.id.data.contains ':' = false) :
    SingleInv h (withTask (processExecutionQueue s key)) := by
  cases hq : alookup s.executionQueue key with
  | none =>
    simp only [processExecutionQueue, hq, withTask]
    exact hinv
  | some q =>
    cases q with
    | nil =>
      simp only [processExecutionQueue, hq, withTask]
      exact hinv
    | cons e rest =>
      simp only [processExecutionQueue, hq]
      have hmem := alookup_mem _ _ _ hq
      have hall := hinv.qhooks (key, e :: rest) hmem
      exact drainIterate_inv h s key e rest hinv hcf (hall e (List.mem_cons_self _ _))
        (fun x hx => hall x (List.mem_cons_of_mem _ hx))

/-- The loop-head re-check preserves the invariant. -/
theorem drainLoopHead_inv (h : Hook) (s : ExecState) (key : String)
    (hinv : SingleInv h s) (hcf : h.id.data.contains ':' = false) :
    SingleInv h (withTask (drainLoopHead s key)) := by
  cases hq : alookup s.executionQueue key with
  | none =>
    simp only [drainLoopHead, hq, withTask]
    exact hinv
  | some q =>
    cases q with
    | nil =>
      simp only [drainLoopHead, hq, withTask]
      refine ⟨?_, hinv.thooks, hinv.atMostOne, hinv.liveRunning, hinv.procLive,
        hinv.procNodup⟩
      intro pq hpq
      exact hinv.qhooks pq ((aerase_sublist _ _).mem hpq)
    | cons e rest =>
      simp only [drainLoopHead, hq]
      have hmem := alookup_mem _ _ _ hq
      have hall := hinv.qhooks (key, e :: rest) hmem
      exact drainIterate_inv h s key e rest hinv hcf (hall e (List.mem_cons_self _ _))
        (fun x hx => hall x (List.mem_cons_of_mem _ hx))

/-- Enqueueing an event whose hook respects `hookOK` preserves the
invariant. -/
theorem enqueueHookExecution_inv (h : Hook) (s : ExecState) (filePath : String)
    (hook : Hook) (ctx : TriggerCtx) (hinv : SingleInv h s) (hok : hookOK h hook)
    (hcf : h.id.data.contains ':' = false) :
    SingleInv h (withTask (enqueueHookExecution s filePath hook ctx)) := by
  have hq : ∀ x ∈ sortByPriorityDesc
      (((alookup s.executionQueue filePath).getD []) ++ [(hook, ctx)]), hookOK h x.1 := by
    intro x hx
    have hx2 := mem_sortByPriorityDesc _ _ hx
    rcases List.mem_append.mp hx2 with hx2 | hx2
    · cases hq0 : alookup s.executionQueue filePath with
      | none =>
        rw [hq0] at hx2
        cases hx2
      | some q0 =>
        rw [hq0] at hx2
        exact hinv.qhooks (filePath, q0) (alookup_mem _ _ _ hq0) x hx2
    · rcases List.mem_cons.mp hx2 with rfl | hx2
      · exact hok
      · cases hx2
  have hinv1 : SingleInv h { s with executionQueue := aset s.executionQueue filePath (sortByPriorityDesc (((alookup s.executionQueue filePath).getD []) ++ [(hook, ctx)])) } :=
    queueShift_inv h s filePath _ hq hinv
  by_cases hlen : (sortByPriorityDesc
      (((alookup s.executionQueue filePath).getD []) ++ [(hook, ctx)])).length = 1
  · simp only [enqueueHookExecution, hlen, if_true]
    exact processExecutionQueue_inv h _ filePath hinv1 hcf
  · simp only [enqueueHookExecution, hlen, if_false, withTask]
    exact hinv1

/-- Text-document event handling preserves the invariant. -/
theorem handleFileEvent_inv (h : Hook) (s : ExecState) (hook : Hook) (p et : String)
    (hinv : SingleInv h s) (hok : hookOK h hook)
    (hcf : h.id.data.contains ':' = false) :
    SingleInv h (withTask (handleFileEvent s hook p et)) := by
  by_cases hg : smem s.hookGeneratedFiles p = true
  · simp only [handleFileEvent, hg, if_true, withTask]
    exact SingleInv.transfer h s _ rfl rfl rfl rfl hinv
  · rw [Bool.not_eq_true] at hg
    simp only [handleFileEvent, hg, Bool.false_eq_true, if_false]
    by_cases hp : matchesFilePattern p hook = false
    · simp only [hp, if_true, withTask]
      exact hinv
    · rw [Bool.not_eq_false] at hp
      simp only [hp, Bool.true_eq_false, if_false]
      exact enqueueHookExecution_inv h s p hook _ hinv hok hcf

/-- File-system event handling preserves the invariant. -/
theorem handleFileSystemEvent_inv (h : Hook) (s : ExecState) (hook : Hook) (p et : String)
    (hinv : SingleInv h s) (hok : hookOK h hook)
    (hcf : h.id.data.contains ':' = false) :
    SingleInv h (withTask (handleFileSystemEvent s hook p et)) := by
  by_cases hp : matchesFilePattern p hook = false
  · simp only [handleFileSystemEvent, hp, if_true, withTask]
    exact hinv
  · rw [Bool.not_eq_false] at hp
    simp only [handleFileSystemEvent, hp, Bool.true_eq_false, if_false]
    exact enqueueHookExecution_inv h s p hook _ hinv hok hcf

/-- Invariant for the state reached right after an execution's cleanup
(`executeHookFinish` before its drain-tail continuation), for an arbitrary
generated-files field `g`. -/
theorem finishState_inv (h : Hook) (s : ExecState) (i : Nat) (key : String) (eid : Nat)
    (hook : Hook) (ctx : TriggerCtx) (g : List String)
    (hcf : h.id.data.contains ':' = false) (hinv : SingleInv h s)
    (hget : s.tasks.get? i = some (TaskK.aiCall key eid hook ctx)) :
    SingleInv h { s with
        tasks := s.tasks.eraseIdx i
        runningHooks := aerase s.runningHooks hook.id
        processingFiles := s.processingFiles.erase (hookFileKey hook.id ctx.file)
        hookGeneratedFiles := g
        log := LogEv.endEv eid hook.id :: s.log } := by
  have htmem : TaskK.aiCall key eid hook ctx ∈ s.tasks := mem_of_get? _ _ _ hget
  have hok : hookOK h hook := hinv.thooks _ htmem
  by_cases hid : hook.id = h.id
  · have hlive : isLiveExecOf h.id (TaskK.aiCall key eid hook ctx) = true := by
      simp [isLiveExecOf, hid]
    have hcount1 : (s.tasks.filter (isLiveExecOf h.id)).length = 1 := by
      have hle := hinv.atMostOne
      have hge : 1 ≤ (s.tasks.filter (isLiveExecOf h.id)).length := by
        have : TaskK.aiCall key eid hook ctx ∈ s.tasks.filter (isLiveExecOf h.id) :=
          List.mem_filter.mpr ⟨htmem, hlive⟩
        exact List.length_pos.mpr (fun hnil => by rw [hnil] at this; cases this)
      unfold liveCountOf at hle
      omega
    have hcount0 : ((s.tasks.eraseIdx i).filter (isLiveExecOf h.id)).length = 0 := by
      have := length_filter_eraseIdx (isLiveExecOf h.id) s.tasks i _ hget
      rw [hlive] at this
      simp only [if_true] at this
      omega
    refine ⟨hinv.qhooks, ?_, ?_, ?_, ?_, hinv.procNodup.erase _⟩
    · intro t' ht'
      exact hinv.thooks t' ((List.eraseIdx_sublist s.tasks i).mem ht')
    · show ((s.tasks.eraseIdx i).filter (isLiveExecOf h.id)).length ≤ 1
      omega
    · show 1 ≤ ((s.tasks.eraseIdx i).filter (isLiveExecOf h.id)).length → _
      intro hc
      omega
    · intro k hk hshape
      exfalso
      have hk2 : k ∈ s.processingFiles := List.mem_of_mem_erase hk
      have hkne : k ≠ hookFileKey hook.id ctx.file :=
        ((hinv.procNodup.mem_erase_iff).mp hk).1
      obtain ⟨t', ht', hl', hpk'⟩ := hinv.procLive k hk2 hshape
      by_cases hte : t' = TaskK.aiCall key eid hook ctx
      · subst hte
        simp only [taskProcKey, Option.some.injEq] at hpk'
        exact hkne hpk'.symm
      · have h2 : 2 ≤ (s.tasks.filter (isLiveExecOf h.id)).length :=
          two_mem_length_filter (isLiveExecOf h.id) s.tasks t' _
            (List.mem_filter.mpr ⟨ht', hl'⟩) (List.mem_filter.mpr ⟨htmem, hlive⟩) hte
        omega
  · have hnl : isLiveExecOf h.id (TaskK.aiCall key eid hook ctx) = false := by
      simp [isLiveExecOf, hid]
    have hcount : ((s.tasks.eraseIdx i).filter (isLiveExecOf h.id)).length
        = (s.tasks.filter (isLiveExecOf h.id)).length := by
      have := length_filter_eraseIdx (isLiveExecOf h.id) s.tasks i _ hget
      rw [hnl] at this
      simp only [Bool.false_eq_true, if_false] at this
      omega
    refine ⟨hinv.qhooks, ?_, ?_, ?_, ?_, hinv.procNodup.erase _⟩
    · intro t' ht'
      exact hinv.thooks t' ((List.eraseIdx_sublist s.tasks i).mem ht')
    · show ((s.tasks.eraseIdx i).filter (isLiveExecOf h.id)).length ≤ 1
      rw [hcount]
      exact hinv.atMostOne
    · show 1 ≤ ((s.tasks.eraseIdx i).filter (isLiveExecOf h.id)).length →
        (alookup (aerase s.runningHooks hook.id) h.id).isSome = true
      intro hc
      rw [hcount] at hc
      rw [alookup_aerase_ne _ _ _ (fun he => hid he.symm)]
      exact hinv.liveRunning hc
    · intro k hk hshape
      have hk2 : k ∈ s.processingFiles := List.mem_of_mem_erase hk
      obtain ⟨t', ht', hl', hpk'⟩ := hinv.procLive k hk2 hshape
      have htne : t' ≠ TaskK.aiCall key eid hook ctx := by
        intro hte
        rw [hte] at hl'
        rw [hnl] at hl'
        cases hl'
      exact ⟨t', mem_eraseIdx_of_ne _ _ _ _ hget ht' htne, hl', hpk'⟩

/-- Removing a suspended task that is not a live execution of `h`
preserves the invariant. -/
theorem eraseIdxTask_inv (h : Hook) (s : ExecState) (i : Nat) (t : TaskK)
    (hget : s.tasks.get? i = some t) (hnl : isLiveExecOf h.id t = false)
    (hinv : SingleInv h s) : SingleInv h { s with tasks := s.tasks.eraseIdx i } := by
  have hcount : ((s.tasks.eraseIdx i).filter (isLiveExecOf h.id)).length
      = (s.tasks.filter (isLiveExecOf h.id)).length := by
    have := length_filter_eraseIdx (isLiveExecOf h.id) s.tasks i _ hget
    rw [hnl] at this
    simp only [Bool.false_eq_true, if_false] at this
    omega
  refine ⟨hinv.qhooks, ?_, ?_, ?_, ?_, hinv.procNodup⟩
  · intro t' ht'
    exact hinv.thooks t' ((List.eraseIdx_sublist s.tasks i).mem ht')
  · show ((s.tasks.eraseIdx i).filter (isLiveExecOf h.id)).length ≤ 1
    rw [hcount]
    exact hinv.atMostOne
  · show 1 ≤ ((s.tasks.eraseIdx i).filter (isLiveExecOf h.id)).length → _
    intro hc
    rw [hcount] at hc
    exact hinv.liveRunning hc
  · intro k hk hshape
    obtain ⟨t', ht', hl', hpk'⟩ := hinv.procLive k hk hshape
    have htne : t' ≠ t := by
      intro hte
      rw [hte, hnl] at hl'
      cases hl'
    exact ⟨t', mem_eraseIdx_of_ne _ _ _ _ hget ht' htne, hl', hpk'⟩

/-- Resuming any suspended task preserves the invariant. -/
theorem resumeTask_inv (h : Hook) (s : ExecState) (i : Nat) (res : AIResult)
    (hinv : SingleInv h s) (hcf : h.id.data.contains ':' = false) :
    SingleInv h (resumeTask s i res) := by
  cases hget : s.tasks.get? i with
  | none =>
    simp only [resumeTask, hget]
    exact hinv
  | some t =>
    have htmem : t ∈ s.tasks := mem_of_get? _ _ _ hget
    have htok := hinv.thooks t htmem
    cases t with
    | restartSleep key hook ctx =>
      obtain ⟨hok, hne⟩ := htok
      have hinv' : SingleInv h { s with tasks := s.tasks.eraseIdx i } :=
        eraseIdxTask_inv h s i _ hget rfl hinv
      simp only [resumeTask, hget, resumeRestartSleep]
      cases hchk : executeHookWithChecks { s with tasks := s.tasks.eraseIdx i } key hook ctx with
      | mk s2 opt =>
        cases opt with
        | some tk =>
          have h1 : SingleInv h (withTask (executeHookWithChecks
              { s with tasks := s.tasks.eraseIdx i } key hook ctx)) :=
            executeHookWithChecks_inv h _ key hook ctx hinv' hok hcf
              (fun hid => absurd hid hne)
          rw [hchk] at h1
          exact h1
        | none =>
          have hs2 : s2 = { s with tasks := s.tasks.eraseIdx i } := by
            have := executeHookWithChecks_drop_eq
              { s with tasks := s.tasks.eraseIdx i } key hook ctx (by rw [hchk])
            rw [hchk] at this
            exact this
          subst hs2
          exact afterScheduleInQueue_inv h _ key hinv'
    | aiCall key eid hook ctx =>
      simp only [resumeTask, hget, executeHookFinish]
      cases hmg : markGeneratedPath ctx res
          (({ s with tasks := s.tasks.eraseIdx i }).abortedCtrls.contains eid) with
      | none =>
        exact afterScheduleInQueue_inv h _ key
          (finishState_inv h s i key eid hook ctx s.hookGeneratedFiles hcf hinv hget)
      | some p =>
        exact afterScheduleInQueue_inv h _ key
          (finishState_inv h s i key eid hook ctx (sadd s.hookGeneratedFiles p) hcf hinv hget)
    | pacing key =>
      have hinv' : SingleInv h { s with tasks := s.tasks.eraseIdx i } :=
        eraseIdxTask_inv h s i _ hget rfl hinv
      simp only [resumeTask, hget]
      exact drainLoopHead_inv h _ key hinv' hcf

/-- The public reset entry point preserves the invariant. -/
theorem resetCooldown_inv (h : Hook) (s : ExecState) (hookId : String)
    (fp : Option String) (hinv : SingleInv h s) :
    SingleInv h (resetCooldown s hookId fp) := by
  cases fp with
  | some f =>
    refine ⟨hinv.qhooks, hinv.thooks, hinv.atMostOne, hinv.liveRunning, ?_, ?_⟩
    · intro k hk hshape
      exact hinv.procLive k (List.mem_of_mem_erase hk) hshape
    · exact hinv.procNodup.erase _
  | none =>
    refine ⟨hinv.qhooks, hinv.thooks, hinv.atMostOne, hinv.liveRunning, ?_, ?_⟩
    · intro k hk hshape
      exact hinv.procLive k ((foldl_erase_sublist _ _).mem hk) hshape
    · exact hinv.procNodup.sublist (foldl_erase_sublist _ _)

/-- Every event-loop step preserves the invariant, provided delivered
events satisfy the environment discipline. -/
theorem step_inv (h : Hook) (s : ExecState) (a : EnvAction)
    (hinv : SingleInv h s) (hcf : h.id.data.contains ':' = false)
    (ha : actionOK h a) : SingleInv h (step s a) := by
  cases a with
  | docEvent hook p et => exact handleFileEvent_inv h s hook p et hinv ha hcf
  | fsEvent hook p et => exact handleFileSystemEvent_inv h s hook p et hinv ha hcf
  | resume i res => exact resumeTask_inv h s i res hinv hcf
  | tick dt => exact SingleInv.transfer h s _ rfl rfl rfl rfl hinv
  | resetCd hid fp => exact resetCooldown_inv h s hid fp hinv
  | stop hid =>
    apply SingleInv.transfer h s _ _ _ _ _ hinv <;>
      (simp only [step, stopRunningHook]; cases alookup s.runningHooks hid <;> rfl)

/-- The invariant holds initially. -/
theorem initState_inv (h : Hook) : SingleInv h initState := by
  refine ⟨?_, ?_, ?_, ?_, ?_, ?_⟩
  · intro pq hpq
    cases hpq
  · intro t ht
    cases ht
  · show ((0 : Nat) ≤ 1)
    omega
  · intro hc
    simp [liveCountOf, initState] at hc
  · intro k hk
    cases hk
  · exact List.nodup_nil

/-- The invariant holds in every state reachable under the environment
discipline. -/
theorem run_inv (h : Hook) (hcf : h.id.data.contains ':' = false) (acts : List EnvAction)
    (hacts : ∀ a ∈ acts, actionOK h a) (s : ExecState) (hinv : SingleInv h s) :
    SingleInv h (run s acts) := by
  induction acts generalizing s with
  | nil => exact hinv
  | cons a as ih =>
    simp only [run]
    exact ih (fun a' ha' => hacts a' (List.mem_cons_of_mem _ ha'))
      (step s a) (step_inv h s a hinv hcf (hacts a (List.mem_cons_self _ _)))

/-- C6: for a single-mode hook `h`, in every state reachable from the
fresh dispatcher under events whose hooks are well-formed (colliding ids
are single-mode, ids contain no colon), at most one execution of `h` is
live; a newly scheduled invocation of `h` while it is running — for any
file — returns with the state unchanged (dropped, not queued); when it is
not running, the invocation is likewise dropped with the state unchanged
if the per-(hook, file) cooldown has not elapsed; and otherwise it
proceeds: the schedule step begins a fresh execution and registers its
handle. -/
theorem C6_single_mode (h : Hook) (acts : List EnvAction)
    (hmode : h.executionMode = HookExecutionMode.single)
    (hcf : h.id.data.contains ':' = false)
    (hacts : ∀ a ∈ acts, actionOK h a) :
    liveCountOf (run initState acts) h.id ≤ 1
    ∧ (∀ key ctx, (alookup (run initState acts).runningHooks h.id).isSome = true →
        scheduleHookExecution (run initState acts) key h ctx = (run initState acts, none))
    ∧ (∀ key ctx, (alookup (run initState acts).runningHooks h.id).isSome = false →
        canExecuteAfterCooldown (run initState acts) (hookFileKey h.id ctx.file) = false →
        scheduleHookExecution (run initState acts) key h ctx = (run initState acts, none))
    ∧ (∀ key ctx, (alookup (run initState acts).runningHooks h.id).isSome = false →
        canExecuteAfterCooldown (run initState acts) (hookFileKey h.id ctx.file) = true →
        (scheduleHookExecution (run initState acts) key h ctx).2
            = some (TaskK.aiCall key (run initState acts).nextEid h ctx)
          ∧ alookup (scheduleHookExecution (run initState acts) key h ctx).1.runningHooks h.id
            = some (run initState acts).nextEid) := by
  have hinv : SingleInv h (run initState acts) :=
    run_inv h hcf acts hacts initState (initState_inv h)
  refine ⟨hinv.atMostOne, ?_, ?_, ?_⟩
  · intro key ctx hrun
    simp only [scheduleHookExecution, hmode, hrun, if_true]
  · intro key ctx hrun hcool
    simp only [scheduleHookExecution, hmode, hrun, Bool.false_eq_true, if_false, hcool,
      if_true]
  · intro key ctx hrun hcool
    have hguard : smem (run initState acts).processingFiles (hookFileKey h.id ctx.file)
        = false := by
      rw [Bool.eq_false_iff]
      intro hmem
      obtain ⟨t', ht', hl', _⟩ := hinv.procLive _ ((smem_iff _ _).mp hmem) ⟨ctx.file, rfl⟩
      have hc1 : 1 ≤ liveCountOf (run initState acts) h.id := by
        have hmf : t' ∈ (run initState acts).tasks.filter (isLiveExecOf h.id) :=
          List.mem_filter.mpr ⟨ht', hl'⟩
        exact List.length_pos.mpr (fun hnil => by rw [hnil] at hmf; cases hmf)
      rw [hinv.liveRunning hc1] at hrun
      cases hrun
    simp only [scheduleHookExecution, hmode, hrun, Bool.false_eq_true, if_false, hcool,
      Bool.true_eq_false, executeHookWithChecks, hguard, executeHookStart]
    exact ⟨trivial, alookup_aset_self _ _ _⟩

/-- C6 witness: the exclusivity theorem applied to the concrete trace in
which a single-mode hook receives a second trigger while running. -/
theorem C6_witness : liveCountOf (run initState c6Trace) hookSgl.id ≤ 1 := by
  refine (C6_single_mode hookSgl c6Trace rfl (by decide) ?_).1
  intro a ha
  simp only [c6Trace, List.mem_cons, List.not_mem_nil, or_false] at ha
  rcases ha with rfl | rfl | rfl
  · exact trivial
  · exact ⟨fun _ => rfl, by decide⟩
  · exact ⟨fun _ => rfl, by decide⟩
